import Mathlib

/-!
# my_alloc: a break-extending first-fit allocator

Shallow embedding of `src/my_alloc.c`.

Model conventions
* The target is an LP64 little-endian machine: `size_t` and pointers are 64 bits,
  `int` is 32 bits, and `struct meta_block` is laid out as
  `size` at offset 0 (8 bytes), `next` at offset 8 (8 bytes), `free` at offset 16
  (4 bytes), padded to `sizeof(meta_block) = 24`.
* Memory is one flat byte array `mem : Nat → Nat`; header fields are read and written
  through it, so a payload write that runs over a header really changes that header.
* `assert` is enabled (the source never defines `NDEBUG`): a failing assertion ends the
  run with `Res.abort`.
* The `while` loop of `find_free_block` is run with a bound on the number of times its
  condition is evaluated; `Res.nofuel` reports an exhausted bound.
* `sbrk` is the only operating-system primitive; the OS grants a break up to `limit`.
-/

namespace MyAlloc

/-! ## Machine constants -/

/-- Number of values of a 64-bit word (`size_t`, pointers). -/
def WORD : Nat := 18446744073709551616

/-- Largest `size_t` value. -/
def SIZE_MAX : Nat := 18446744073709551615

/-- The null pointer. -/
def NULL : Nat := 0

/-- Value of `sizeof(meta_block)`: the macro `META_SIZE`. -/
def META_SIZE : Nat := 24

/-- The value `(void*)-1` that `sbrk` returns on failure. -/
def SBRK_FAIL : Nat := 18446744073709551615

/-! ## State -/

/-- Process state seen by the allocator: byte memory, the program break, the highest break
the operating system is willing to grant, and the global variable `global_base`. -/
structure State where
  mem : Nat → Nat
  brk : Nat
  limit : Nat
  global_base : Nat

/-- Outcome of running a function: normal return with a value and the state afterwards,
a failed `assert`, or an exhausted loop bound. -/
inductive Res (α : Type) where
  | ok (v : α) (s : State) : Res α
  | abort : Res α
  | nofuel : Res α

/-- Returned value of a run, if it returned. -/
def Res.val? {α : Type} : Res α → Option α
  | Res.ok v _ => some v
  | Res.abort => none
  | Res.nofuel => none

/-- State after a run; `d` when the run did not return. -/
def Res.st {α : Type} (r : Res α) (d : State) : State :=
  match r with
  | Res.ok _ s => s
  | Res.abort => d
  | Res.nofuel => d

/-! ## Integer conversions and pointer arithmetic -/

/-- Conversion of a `size_t` value to `int` (keeps the low 32 bits, two's complement). -/
def int_of_size_t (n : Nat) : Int :=
  if n % 4294967296 < 2147483648 then ((n % 4294967296 : Nat) : Int)
  else ((n % 4294967296 : Nat) : Int) - 4294967296

/-- Conversion of an `int` value to `size_t`. -/
def size_t_of_int (i : Int) : Nat := (i % 18446744073709551616).toNat

/-- Conversion of a `size_t` value to `intptr_t`, the parameter type of `sbrk`. -/
def intptr_of_size_t (n : Nat) : Int :=
  if n % WORD < 9223372036854775808 then ((n % WORD : Nat) : Int)
  else ((n % WORD : Nat) : Int) - 18446744073709551616

/-- Pointer step `block + 1` on a `meta_block*`. -/
def ptr_succ (block : Nat) : Nat := (block + META_SIZE) % WORD

/-- Pointer step `(meta_block*)ptr - 1`. -/
def ptr_pred (ptr : Nat) : Nat := (ptr + WORD - META_SIZE) % WORD

/-! ## Byte memory -/

/-- Little-endian read of `n` bytes at address `a`. -/
def load (mem : Nat → Nat) (a : Nat) : Nat → Nat
  | 0 => 0
  | n + 1 => mem a % 256 + 256 * load mem (a + 1) n

/-- Little-endian write of the low `n` bytes of `v` at address `a`. -/
def store (mem : Nat → Nat) (a n v : Nat) : Nat → Nat :=
  fun x => if a ≤ x ∧ x < a + n then (v / 256 ^ (x - a)) % 256 else mem x

/-- Library `memset(dst, c, n)`. -/
def memset (mem : Nat → Nat) (dst c n : Nat) : Nat → Nat :=
  fun x => if dst ≤ x ∧ x < dst + n then c % 256 else mem x

/-- Library `memcpy(dst, src, n)`; the source bytes are those before the call. -/
def memcpy (mem : Nat → Nat) (dst src n : Nat) : Nat → Nat :=
  fun x => if dst ≤ x ∧ x < dst + n then mem (src + (x - dst)) else mem x

/-- Field `block->size`. -/
def get_size (mem : Nat → Nat) (block : Nat) : Nat := load mem block 8

/-- Field `block->next`. -/
def get_next (mem : Nat → Nat) (block : Nat) : Nat := load mem (block + 8) 8

/-- Field `block->free`. -/
def get_free (mem : Nat → Nat) (block : Nat) : Nat := load mem (block + 16) 4

/-- Assignment `block->size = v`. -/
def set_size (mem : Nat → Nat) (block v : Nat) : Nat → Nat := store mem block 8 v

/-- Assignment `block->next = v`. -/
def set_next (mem : Nat → Nat) (block v : Nat) : Nat → Nat := store mem (block + 8) 8 v

/-- Assignment `block->free = v`. -/
def set_free (mem : Nat → Nat) (block v : Nat) : Nat → Nat := store mem (block + 16) 4 v

/-! ## The operating-system primitive -/

/-- Behaviour of `sbrk(incr)`: `sbrk(0)` reports the break; otherwise the break moves by `incr`
when the result stays within what the OS grants, and the old break is returned; on refusal
the result is `(void*)-1` and nothing changes. -/
def sbrk (s : State) (incr : Int) : Nat × State :=
  if incr = 0 then (s.brk, s)
  else if 0 ≤ (s.brk : Int) + incr ∧ (s.brk : Int) + incr ≤ (s.limit : Int) then
    (s.brk, { s with brk := ((s.brk : Int) + incr).toNat })
  else (SBRK_FAIL, s)

/-! ## The allocator -/

/-- The `while` loop of `find_free_block`: `curr` and `*last` are the loop variables, the
result is their value at loop exit. The bound counts evaluations of the loop condition. -/
def find_free_loop (mem : Nat → Nat) (size : Nat) : Nat → Nat → Nat → Option (Nat × Nat)
  | 0, _, _ => none
  | fuel + 1, curr, last =>
    if curr ≠ NULL ∧ ¬ (get_free mem curr ≠ 0 ∧ get_size mem curr ≥ size) then
      find_free_loop mem size fuel (get_next mem curr) curr
    else some (curr, last)

/-- Function `find_free_block(&last, size)`: returns the block found (or `NULL`) together
with the final value of `*last`. -/
def find_free_block (fuel : Nat) (s : State) (last size : Nat) : Option (Nat × Nat) :=
  find_free_loop s.mem size fuel s.global_base last

/-- Function `request_block(last, size)`. -/
def request_block (s : State) (last size : Nat) : Res Nat :=
  let block := (sbrk s 0).1
  let s0 := (sbrk s 0).2
  let request := (sbrk s0 (intptr_of_size_t ((size + META_SIZE) % WORD))).1
  let s1 := (sbrk s0 (intptr_of_size_t ((size + META_SIZE) % WORD))).2
  if block ≠ request then Res.abort
  else if request = SBRK_FAIL then Res.ok NULL s1
  else
    let m1 := if last ≠ NULL then set_next s1.mem last block else s1.mem
    let m2 := set_size m1 block size
    let m3 := set_next m2 block NULL
    let m4 := set_free m3 block 0
    Res.ok block { s1 with mem := m4 }

/-- Function `my_alloc(size)`. -/
def my_alloc (fuel : Nat) (s : State) (size : Int) : Res Nat :=
  if size < 0 then Res.ok NULL s
  else if s.global_base = NULL then
    match request_block s NULL (size_t_of_int size) with
    | Res.ok block s1 =>
      if block = NULL then Res.ok NULL s1
      else Res.ok (ptr_succ block) { s1 with global_base := block }
    | Res.abort => Res.abort
    | Res.nofuel => Res.nofuel
  else
    match find_free_block fuel s s.global_base (size_t_of_int size) with
    | none => Res.nofuel
    | some (block, last) =>
      if block = NULL then
        match request_block s last (size_t_of_int size) with
        | Res.ok block1 s1 =>
          if block1 = NULL then Res.ok NULL s1 else Res.ok (ptr_succ block1) s1
        | Res.abort => Res.abort
        | Res.nofuel => Res.nofuel
      else Res.ok (ptr_succ block) { s with mem := set_free s.mem block 0 }

/-- Function `freee(ptr)`. -/
def freee (s : State) (ptr : Nat) : Res Unit :=
  if ptr = NULL then Res.ok () s
  else if get_free s.mem (ptr_pred ptr) ≠ 0 then Res.abort
  else Res.ok () { s with mem := set_free s.mem (ptr_pred ptr) 1 }

/-- Function `call_oc(nelem, elsize)`. -/
def call_oc (fuel : Nat) (s : State) (nelem elsize : Nat) : Res Nat :=
  if nelem ≠ 0 ∧ (nelem * elsize % WORD) / nelem ≠ elsize then Res.ok NULL s
  else
    match my_alloc fuel s (int_of_size_t (nelem * elsize % WORD)) with
    | Res.ok ptr s1 =>
      if ptr = NULL then Res.ok NULL s1
      else Res.ok ptr { s1 with mem := memset s1.mem ptr 0 (nelem * elsize % WORD) }
    | Res.abort => Res.abort
    | Res.nofuel => Res.nofuel

/-- Function `reall_oc(ptr, size)`. -/
def reall_oc (fuel : Nat) (s : State) (ptr size : Nat) : Res Nat :=
  if ptr = NULL then my_alloc fuel s (int_of_size_t size)
  else if get_size s.mem (ptr_pred ptr) ≥ size then Res.ok ptr s
  else
    match my_alloc fuel s (int_of_size_t size) with
    | Res.ok new_ptr s1 =>
      if new_ptr = NULL then Res.ok NULL s1
      else
        let m := memcpy s1.mem new_ptr ptr (get_size s1.mem (ptr_pred ptr))
        match freee { s1 with mem := m } ptr with
        | Res.ok _ s2 => Res.ok new_ptr s2
        | Res.abort => Res.abort
        | Res.nofuel => Res.nofuel
    | Res.abort => Res.abort
    | Res.nofuel => Res.nofuel

/-! ## Well-formed chains -/

/-- The blocks reached from `a` by following `next` links are exactly `l`, and the walk ends
at `NULL`. -/
def Chain (mem : Nat → Nat) : Nat → List Nat → Prop
  | a, [] => a = NULL
  | a, b :: l => a = b ∧ b ≠ NULL ∧ Chain mem (get_next mem b) l

/-- Deciding `Chain` by walking the list. -/
def Chain.dec (mem : Nat → Nat) : (a : Nat) → (l : List Nat) → Decidable (Chain mem a l)
  | a, [] => inferInstanceAs (Decidable (a = NULL))
  | a, b :: l =>
    have := Chain.dec mem (get_next mem b) l
    inferInstanceAs (Decidable (a = b ∧ b ≠ NULL ∧ Chain mem (get_next mem b) l))

instance (mem : Nat → Nat) (a : Nat) (l : List Nat) : Decidable (Chain mem a l) :=
  Chain.dec mem a l

/-- The test that ends the loop of `find_free_block` on a non-null block:
`curr->free && curr->size >= size`. -/
def fits (mem : Nat → Nat) (size : Nat) (b : Nat) : Bool :=
  decide (get_free mem b ≠ 0 ∧ get_size mem b ≥ size)

/-- Well-formed allocator state with chain `l`: the break is a real address within what the
OS grants, `global_base` heads the `NULL`-terminated chain `l`, and every block (header and
`size` payload bytes) ends before the next block of the chain starts and before the break. -/
structure WF (s : State) (l : List Nat) : Prop where
  brk_pos : 0 < s.brk
  brk_le : s.brk ≤ s.limit
  limit_lt : s.limit < SIZE_MAX
  chain : Chain s.mem s.global_base l
  inb : ∀ b ∈ l, b + META_SIZE + get_size s.mem b ≤ s.brk
  sep : l.Pairwise (fun b c => b + META_SIZE + get_size s.mem b ≤ c)

/-! ## Sample states -/

/-- A fresh process: no block yet, break at 4096, the OS grants up to 8192. -/
def fresh : State := { mem := fun _ => 0, brk := 4096, limit := 8192, global_base := NULL }

/-- A fresh process whose break cannot be extended at all. -/
def exhausted : State := { mem := fun _ => 0, brk := 4096, limit := 4096, global_base := NULL }

/-- The state after `a = my_alloc(50); b = my_alloc(50); freee(a)` on a fresh process:
`a = 4120` (block 4096) is free, `b = 4194` (block 4170) is in use. -/
def two_blocks : State :=
  (freee ((my_alloc 2 ((my_alloc 2 fresh 50).st fresh) 50).st fresh) 4120).st fresh

/-- The state after `p = my_alloc(8)`, the caller filling the 8 payload bytes with `0xAB`, and
`freee(p)` on a fresh process: one free block whose payload holds non-zero data. -/
def dirty : State :=
  (freee { (my_alloc 1 fresh 8).st fresh with
      mem := memset ((my_alloc 1 fresh 8).st fresh).mem 4120 171 8 } 4120).st fresh

/-- The state after `a = my_alloc(0); x = my_alloc(8); p = my_alloc(40); freee(a)` on a fresh
process: `a = 4120` (block 4096) is free, `x = 4144` (block 4120) and `p = 4176` (block 4152)
are in use, the break is 4216. -/
def three_blocks : State :=
  (freee ((my_alloc 3 ((my_alloc 3 ((my_alloc 3 fresh 0).st fresh) 8).st fresh) 40).st fresh)
    4120).st fresh

/-- The state after `reall_oc(p, 4294967296)` on `three_blocks`, with `p = 4176`. -/
def after_wide_resize : State := (reall_oc 4 three_blocks 4176 4294967296).st three_blocks

/-- The state after `a = my_alloc(50); b = my_alloc(30); freee(a); freee(b)` on a fresh
process: block 4096 (size 50) and block 4170 (size 30) are both free. -/
def two_free : State :=
  (freee ((freee ((my_alloc 2 ((my_alloc 2 fresh 50).st fresh) 30).st fresh) 4120).st fresh)
    4194).st fresh

/-- The state after `a = my_alloc(0); x = my_alloc(8); p = my_alloc(56); freee(a)` on a fresh
process: `a = 4120` (block 4096) is free, `x = 4144` (block 4120) and `p = 4176` (block 4152)
are in use, the break is 4232. -/
def wide_blocks : State :=
  (freee ((my_alloc 3 ((my_alloc 3 ((my_alloc 3 fresh 0).st fresh) 8).st fresh) 56).st fresh)
    4120).st fresh

/-- The state `three_blocks` after the caller has filled the 40 payload bytes of `p = 4176`
with the byte `0x01`. -/
def three_blocks_filled : State :=
  { three_blocks with mem := memset three_blocks.mem 4176 1 40 }

/-- The state after `reall_oc(p, 4294967296)` on `three_blocks_filled`, with `p = 4176`. -/
def after_wide_resize_filled : State :=
  (reall_oc 4 three_blocks_filled 4176 4294967296).st three_blocks_filled

/-! ## Callers whose byte counts fit an `int` -/

/-- Contiguous layout of a chain: every block ends (header, then `size` payload bytes) exactly
where the next block of the chain starts, and the last block ends at the break. -/
def Contig (mem : Nat → Nat) (brk : Nat) : List Nat → Prop
  | [] => True
  | b :: l => b + META_SIZE + get_size mem b = l.headD brk ∧ Contig mem brk l

/-- One action of a caller on state `s` while it holds the pointers `H`, leading to state `s2`
with held pointers `H2`. Byte counts fit an `int`; `freee` and `reall_oc` only get `NULL` or a
held pointer; between calls the caller may write any byte of a payload it holds. -/
inductive Step : State → List Nat → State → List Nat → Prop where
  | alloc (fuel : Nat) (n : Int) (s s2 : State) (H : List Nat) (p : Nat) :
      -2147483648 ≤ n → n < 2147483648 → my_alloc fuel s n = Res.ok p s2 →
      Step s H s2 (if p = NULL then H else p :: H)
  | calloc (fuel nelem elsize : Nat) (s s2 : State) (H : List Nat) (p : Nat) :
      nelem * elsize < 2147483648 → call_oc fuel s nelem elsize = Res.ok p s2 →
      Step s H s2 (if p = NULL then H else p :: H)
  | realloc (fuel p size : Nat) (s s2 : State) (H : List Nat) (q : Nat) :
      (p = NULL ∨ p ∈ H) → size < 2147483648 → reall_oc fuel s p size = Res.ok q s2 →
      Step s H s2 (if q = NULL then H else q :: H.erase p)
  | free (p : Nat) (s s2 : State) (H : List Nat) :
      (p = NULL ∨ p ∈ H) → freee s p = Res.ok () s2 → Step s H s2 (H.erase p)
  | write (p i v : Nat) (s : State) (H : List Nat) :
      p ∈ H → i < get_size s.mem (ptr_pred p) →
      Step s H { s with mem := store s.mem (p + i) 1 v } H

/-- States (with the pointers the caller holds) reached from a process without blocks, whose
break is a real address within what the OS grants, by actions of such a caller. -/
inductive Reach : State → List Nat → Prop where
  | start (s : State) : s.global_base = NULL → 0 < s.brk → s.brk ≤ s.limit →
      s.limit < SIZE_MAX → Reach s []
  | step (s s2 : State) (H H2 : List Nat) : Reach s H → Step s H s2 H2 → Reach s2 H2

/-- Invariant of the reachable states: the chain `l` is well-formed and contiguous, no pointer
is held twice, and every held pointer is the payload of an in-use block of the chain. -/
structure Inv (s : State) (H : List Nat) (l : List Nat) : Prop where
  wf : WF s l
  contig : Contig s.mem s.brk l
  nodup : H.Nodup
  held : ∀ p ∈ H, ∃ b ∈ l, p = b + META_SIZE ∧ get_free s.mem b = 0

/-- What a returning allocation of `n` bytes has done: from state `s` with chain `l` to state
`s2` with chain `l2`, serving the request from block `c`. The chain is still well-formed and
contiguous and is `l` itself or `l` with the new block `c` appended; `c` is in use, records at
least `n` bytes and was free if it already existed; every old block keeps its `size`, and,
`c` apart, its `free` flag and its payload bytes. -/
structure Served (s : State) (l : List Nat) (n : Nat) (s2 : State) (l2 : List Nat)
    (c : Nat) : Prop where
  wf : WF s2 l2
  contig : Contig s2.mem s2.brk l2
  mem_new : c ∈ l2
  grows : l2 = l ∨ (l2 = l ++ [c] ∧ c ∉ l)
  in_use : get_free s2.mem c = 0
  capacity : n ≤ get_size s2.mem c
  was_free : c ∈ l → get_free s.mem c ≠ 0
  sizes : ∀ x ∈ l, get_size s2.mem x = get_size s.mem x
  flags : ∀ x ∈ l, x ≠ c → get_free s2.mem x = get_free s.mem x
  payloads : ∀ x ∈ l, x ≠ c → ∀ a, x + META_SIZE ≤ a →
    a < x + META_SIZE + get_size s.mem x → s2.mem a = s.mem a

/-- What one action of the caller keeps, from state `s` (held pointers `H`, chain `l`) to
state `s2` (held pointers `H2`, chain `l2`): the invariant; the old chain is a prefix of the
new one, which has at most one block more; no old block changes its `size`; a `free` flag
goes from zero to non-zero only for a pointer released by this action; a pointer that is newly
held sits on a block that was free or did not exist. -/
structure Kept (s : State) (H l : List Nat) (s2 : State) (H2 l2 : List Nat) : Prop where
  inv : Inv s2 H2 l2
  pre : l <+: l2
  len : l2.length ≤ l.length + 1
  sizes : ∀ x ∈ l, get_size s2.mem x = get_size s.mem x
  freed : ∀ x ∈ l, get_free s.mem x = 0 → get_free s2.mem x ≠ 0 →
    x + META_SIZE ∈ H ∧ x + META_SIZE ∉ H2
  fresh : ∀ p ∈ H2, p ∉ H → ∀ x ∈ l, p = x + META_SIZE → get_free s.mem x ≠ 0

/-! ## Byte-memory lemmas -/

theorem load_congr (m1 m2 : Nat → Nat) (n : Nat) : ∀ a : Nat,
    (∀ x, a ≤ x → x < a + n → m1 x = m2 x) → load m1 a n = load m2 a n := by
  induction n with
  | zero => intro a _; rfl
  | succ k ih =>
    intro a h
    have h0 : m1 a = m2 a := h a (Nat.le_refl a) (by omega)
    have h1 : load m1 (a + 1) k = load m2 (a + 1) k :=
      ih (a + 1) (fun x hx1 hx2 => h x (by omega) (by omega))
    simp only [load, h0, h1]

theorem load_lt (m : Nat → Nat) (n : Nat) : ∀ a : Nat, load m a n < 256 ^ n := by
  induction n with
  | zero => intro a; simp [load]
  | succ k ih =>
    intro a
    have h1 := ih (a + 1)
    have h2 : m a % 256 < 256 := Nat.mod_lt _ (by decide)
    simp only [load, pow_succ]
    omega

theorem load_digits (f : Nat → Nat) (a v : Nat) (j : Nat) : ∀ k : Nat,
    (∀ i, k ≤ i → i < k + j → f (a + i) = (v / 256 ^ i) % 256) →
    load f (a + k) j = (v / 256 ^ k) % 256 ^ j := by
  induction j with
  | zero => intro k _; simp [load, Nat.mod_one]
  | succ j ih =>
    intro k h
    have h0 := h k (Nat.le_refl k) (by omega)
    have h1 := ih (k + 1) (fun i hi1 hi2 => h i (by omega) (by omega))
    have e : a + k + 1 = a + (k + 1) := by omega
    simp only [load, h0, e, h1]
    rw [Nat.mod_mod, pow_succ 256 j, Nat.mul_comm (256 ^ j) 256, Nat.mod_mul,
      pow_succ 256 k, Nat.div_div_eq_div_mul]

theorem load_store_same (m : Nat → Nat) (a n v : Nat) :
    load (store m a n v) a n = v % 256 ^ n := by
  have h := load_digits (store m a n v) a v n 0 (by
    intro i _ hi
    simp only [store]
    rw [if_pos (by omega)]
    congr 3
    omega)
  simpa using h

theorem load_store_other (m : Nat → Nat) (a n v b k : Nat) (h : a + n ≤ b ∨ b + k ≤ a) :
    load (store m a n v) b k = load m b k := by
  apply load_congr
  intro x hx1 hx2
  simp only [store]
  rw [if_neg (by omega)]

/-! ## The search loop on a chain -/

theorem getLast_cons_getD (b : Nat) (t : List Nat) (d : Nat) :
    ((b :: t).getLast?).getD d = (t.getLast?).getD b := by
  cases t with
  | nil => simp
  | cons c u =>
    rw [List.getLast?_cons_cons]
    cases h : (c :: u).getLast? with
    | none => simp at h
    | some x => rfl

theorem find_free_loop_chain (mem : Nat → Nat) (size : Nat) (l : List Nat) :
    ∀ (fuel a last : Nat), Chain mem a l → l.length < fuel →
      find_free_loop mem size fuel a last =
        some ((l.find? (fits mem size)).getD NULL,
          ((l.takeWhile (fun b => !fits mem size b)).getLast?).getD last) := by
  induction l with
  | nil =>
    intro fuel a last hc hf
    cases fuel with
    | zero => simp at hf
    | succ f =>
      simp only [Chain] at hc
      simp [find_free_loop, hc]
  | cons b t ih =>
    intro fuel a last hc hf
    cases fuel with
    | zero => simp at hf
    | succ f =>
      obtain ⟨hab, hb, hct⟩ := hc
      subst hab
      have hf' : t.length < f := by simpa using hf
      by_cases hfit : fits mem size a = true
      · have hfit' : get_free mem a ≠ 0 ∧ get_size mem a ≥ size := by
          simpa [fits] using hfit
        simp [find_free_loop, hfit, hfit']
      · have hfit' : ¬ (get_free mem a ≠ 0 ∧ get_size mem a ≥ size) := by
          simpa [fits] using hfit
        have hfb : fits mem size a = false := by simpa using hfit
        rw [find_free_loop, if_pos ⟨hb, hfit'⟩, ih f (get_next mem a) a hct hf']
        simp only [List.find?_cons, hfb, List.takeWhile_cons, Bool.not_false, if_true]
        rw [getLast_cons_getD]

/-! ## Conversions, pointer steps and `sbrk` -/

theorem size_t_of_int_eq (n : Int) (h0 : 0 ≤ n) (h1 : n < 2147483648) :
    size_t_of_int n = n.toNat := by
  unfold size_t_of_int
  congr 1
  omega

theorem ptr_succ_eq (b : Nat) (h : b + META_SIZE < WORD) : ptr_succ b = b + META_SIZE := by
  unfold ptr_succ
  exact Nat.mod_eq_of_lt h

theorem ptr_pred_eq (p : Nat) (h0 : META_SIZE ≤ p) (h1 : p < WORD) :
    ptr_pred p = p - META_SIZE := by
  unfold ptr_pred
  simp only [META_SIZE, WORD] at *
  omega

theorem ptr_pred_succ (b : Nat) (h : b + META_SIZE < WORD) : ptr_pred (ptr_succ b) = b := by
  rw [ptr_succ_eq b h]
  unfold ptr_pred
  simp only [META_SIZE, WORD] at *
  omega

theorem intptr_of_request (sz : Nat) (h : sz < 2147483648) :
    intptr_of_size_t ((sz + META_SIZE) % WORD) = (sz : Int) + 24 := by
  unfold intptr_of_size_t
  simp only [META_SIZE, WORD]
  have e : (sz + 24) % 18446744073709551616 % 18446744073709551616 = sz + 24 := by omega
  rw [e, if_pos (by omega)]
  omega

theorem sbrk_zero (s : State) : sbrk s 0 = (s.brk, s) := by
  simp [sbrk]

theorem sbrk_grant (s : State) (k : Nat) (h0 : 0 < k) (h : s.brk + k ≤ s.limit) :
    sbrk s (k : Int) = (s.brk, { s with brk := s.brk + k }) := by
  unfold sbrk
  rw [if_neg (by omega), if_pos (by omega)]
  congr 2

theorem sbrk_refuse (s : State) (k : Nat) (h0 : 0 < k) (h : s.limit < s.brk + k) :
    sbrk s (k : Int) = (SBRK_FAIL, s) := by
  unfold sbrk
  rw [if_neg (by omega), if_neg (by omega)]

/-- State after a successful `request_block(last, sz)`. -/
theorem request_block_grant (s : State) (last sz : Nat) (hsz : sz < 2147483648)
    (h : s.brk + sz + META_SIZE ≤ s.limit) (hl : s.limit < SIZE_MAX) :
    request_block s last sz = Res.ok s.brk
      { s with
        brk := s.brk + (sz + 24)
        mem := set_free (set_next (set_size
          (if last ≠ NULL then set_next s.mem last s.brk else s.mem) s.brk sz) s.brk NULL)
          s.brk 0 } := by
  have hk : ((sz : Int) + 24) = ((sz + 24 : Nat) : Int) := by push_cast; rfl
  simp only [META_SIZE, SIZE_MAX] at h hl
  have hg := sbrk_grant s (sz + 24) (by omega) (by omega)
  simp only [request_block, sbrk_zero, intptr_of_request sz hsz, hk, hg]
  rw [if_neg (by simp), if_neg (by simp only [SBRK_FAIL]; omega)]

/-- A refused break extension makes `request_block` fail its assertion. -/
theorem request_block_refuse (s : State) (last sz : Nat) (hsz : sz < 2147483648)
    (h : s.limit < s.brk + sz + META_SIZE) (hb : s.brk ≠ SBRK_FAIL) :
    request_block s last sz = Res.abort := by
  have hk : ((sz : Int) + 24) = ((sz + 24 : Nat) : Int) := by push_cast; rfl
  simp only [META_SIZE] at h
  have hg := sbrk_refuse s (sz + 24) (by omega) (by omega)
  simp only [request_block, sbrk_zero, intptr_of_request sz hsz, hk, hg]
  rw [if_pos hb]

/-! ## Header fields under memory changes -/

theorem get_size_congr (m1 m2 : Nat → Nat) (b : Nat)
    (h : ∀ x, b ≤ x → x < b + 8 → m1 x = m2 x) : get_size m1 b = get_size m2 b :=
  load_congr m1 m2 8 b h

theorem get_next_congr (m1 m2 : Nat → Nat) (b : Nat)
    (h : ∀ x, b + 8 ≤ x → x < b + 16 → m1 x = m2 x) : get_next m1 b = get_next m2 b :=
  load_congr m1 m2 8 (b + 8) (fun x h1 h2 => h x h1 (by omega))

theorem get_free_congr (m1 m2 : Nat → Nat) (b : Nat)
    (h : ∀ x, b + 16 ≤ x → x < b + 20 → m1 x = m2 x) : get_free m1 b = get_free m2 b :=
  load_congr m1 m2 4 (b + 16) (fun x h1 h2 => h x h1 (by omega))

theorem get_size_lt (m : Nat → Nat) (b : Nat) : get_size m b < WORD := by
  have h := load_lt m 8 b
  simpa [get_size, WORD] using h

theorem store_off (m : Nat → Nat) (a n v x : Nat) (h : x < a ∨ a + n ≤ x) :
    store m a n v x = m x := by
  unfold store
  rw [if_neg (by omega)]

theorem set_free_off (m : Nat → Nat) (b v x : Nat) (h : x < b + 16 ∨ b + 20 ≤ x) :
    set_free m b v x = m x :=
  store_off m (b + 16) 4 v x (by omega)

theorem get_free_set_free (m : Nat → Nat) (b v : Nat) (hv : v < 4294967296) :
    get_free (set_free m b v) b = v := by
  unfold get_free set_free
  rw [load_store_same]
  exact Nat.mod_eq_of_lt (by simpa using hv)

/-! ## Lemmas on well-formed chains -/

theorem Chain_congr (m1 m2 : Nat → Nat) (l : List Nat) : ∀ a : Nat,
    (∀ b ∈ l, get_next m2 b = get_next m1 b) → Chain m1 a l → Chain m2 a l := by
  induction l with
  | nil => intro a _ h; exact h
  | cons b t ih =>
    intro a hn h
    obtain ⟨h1, h2, h3⟩ := h
    refine ⟨h1, h2, ?_⟩
    rw [hn b (List.mem_cons_self b t)]
    exact ih _ (fun c hc => hn c (List.mem_cons_of_mem b hc)) h3

theorem Chain_ne_null (m : Nat → Nat) (l : List Nat) : ∀ a : Nat,
    Chain m a l → ∀ b ∈ l, b ≠ NULL := by
  induction l with
  | nil => intro a _ b hb; simp at hb
  | cons c t ih =>
    intro a h b hb
    obtain ⟨_, h2, h3⟩ := h
    rcases List.mem_cons.mp hb with e | hm
    · rw [e]; exact h2
    · exact ih _ h3 b hm

theorem Chain_snoc (m m2 : Nat → Nat) (last nb : Nat) (pre : List Nat) : ∀ a : Nat,
    Chain m a (pre ++ [last]) → (∀ b ∈ pre, get_next m2 b = get_next m b) →
    get_next m2 last = nb → nb ≠ NULL → get_next m2 nb = NULL →
    Chain m2 a (pre ++ [last] ++ [nb]) := by
  induction pre with
  | nil =>
    intro a h _ hl hnb hz
    obtain ⟨h1, h2, _⟩ := h
    refine ⟨h1, h2, ?_⟩
    rw [hl]
    exact ⟨rfl, hnb, hz⟩
  | cons b t ih =>
    intro a h hpre hl hnb hz
    obtain ⟨h1, h2, h3⟩ := h
    refine ⟨h1, h2, ?_⟩
    rw [hpre b (List.mem_cons_self b t)]
    exact ih _ h3 (fun c hc => hpre c (List.mem_cons_of_mem b hc)) hl hnb hz

theorem WF_head {s : State} {l : List Nat} (h : WF s l) : s.global_base = l.headD NULL := by
  have hc := h.chain
  cases l with
  | nil => exact hc
  | cons b t => exact hc.1

theorem WF_block_bound {s : State} {l : List Nat} (h : WF s l) {b : Nat} (hb : b ∈ l) :
    b ≠ NULL ∧ b + META_SIZE + get_size s.mem b ≤ s.brk ∧ b + META_SIZE < WORD := by
  have h1 := h.inb b hb
  have h2 := h.brk_le
  have h3 := h.limit_lt
  refine ⟨Chain_ne_null _ _ _ h.chain b hb, h1, ?_⟩
  simp only [META_SIZE, WORD, SIZE_MAX] at *
  omega

theorem WF_apart {s : State} {l : List Nat} (h : WF s l) {b c : Nat} (hb : b ∈ l)
    (hc : c ∈ l) (hne : b ≠ c) :
    b + META_SIZE + get_size s.mem b ≤ c ∨ c + META_SIZE + get_size s.mem c ≤ b := by
  have hp : l.Pairwise (fun x y => x + META_SIZE + get_size s.mem x ≤ y ∨
      y + META_SIZE + get_size s.mem y ≤ x) := h.sep.imp (fun hxy => Or.inl hxy)
  exact hp.forall (fun x y hxy => hxy.symm) hb hc hne

theorem WF_congr {s : State} {l : List Nat} (h : WF s l) (m2 : Nat → Nat)
    (hm : ∀ b ∈ l, ∀ x, b ≤ x → x < b + 16 → m2 x = s.mem x) :
    WF { s with mem := m2 } l := by
  have hs : ∀ b ∈ l, get_size m2 b = get_size s.mem b := fun b hb =>
    get_size_congr m2 s.mem b (fun x h1 h2 => hm b hb x h1 (by omega))
  have hn : ∀ b ∈ l, get_next m2 b = get_next s.mem b := fun b hb =>
    get_next_congr m2 s.mem b (fun x h1 h2 => hm b hb x (by omega) h2)
  refine ⟨h.brk_pos, h.brk_le, h.limit_lt, Chain_congr s.mem m2 l _ hn h.chain, ?_, ?_⟩
  · intro b hb
    show b + META_SIZE + get_size m2 b ≤ s.brk
    rw [hs b hb]
    exact h.inb b hb
  · refine h.sep.imp_of_mem ?_
    intro b c hb _ hbc
    show b + META_SIZE + get_size m2 b ≤ c
    rw [hs b hb]
    exact hbc

theorem WF_set_free {s : State} {l : List Nat} (h : WF s l) {c : Nat} (hc : c ∈ l) (v : Nat) :
    WF { s with mem := set_free s.mem c v } l := by
  apply WF_congr h
  intro b hb x h1 h2
  apply set_free_off
  by_cases e : b = c
  · left; omega
  · have := WF_apart h hb hc e
    simp only [META_SIZE] at this
    omega

/-! ## `my_alloc` on a well-formed chain -/

theorem find_free_block_hit {s : State} {l : List Nat} (h : WF s l) (fuel sz last : Nat)
    (hf : l.length < fuel) {c : Nat} (hc : l.find? (fits s.mem sz) = some c) :
    ∃ last2, find_free_block fuel s last sz = some (c, last2) := by
  unfold find_free_block
  rw [find_free_loop_chain s.mem sz l fuel s.global_base last h.chain hf, hc]
  exact ⟨_, rfl⟩

theorem find_free_block_miss {s : State} {pre : List Nat} {tail : Nat}
    (h : WF s (pre ++ [tail])) (fuel sz last : Nat) (hf : (pre ++ [tail]).length < fuel)
    (hc : (pre ++ [tail]).find? (fits s.mem sz) = none) :
    find_free_block fuel s last sz = some (NULL, tail) := by
  unfold find_free_block
  rw [find_free_loop_chain s.mem sz _ fuel s.global_base last h.chain hf, hc]
  have ht : (pre ++ [tail]).takeWhile (fun b => !fits s.mem sz b) = pre ++ [tail] := by
    rw [List.takeWhile_eq_self_iff]
    intro x hx
    have := List.find?_eq_none.mp hc x hx
    simpa using this
  rw [ht]
  simp

theorem WF_base_ne_null {s : State} {l : List Nat} (h : WF s l) (hl : l ≠ []) :
    s.global_base ≠ NULL := by
  cases l with
  | nil => exact absurd rfl hl
  | cons b t => 
    have := h.chain
    rw [this.1]
    exact this.2.1

/-- A request that the first-fit search can serve from block `c` marks `c` in use and
returns its payload; nothing else changes. -/
theorem my_alloc_hit {s : State} {l : List Nat} (h : WF s l) (fuel : Nat) (n : Int)
    (h0 : 0 ≤ n) (h1 : n < 2147483648) (hf : l.length < fuel) {c : Nat}
    (hc : l.find? (fits s.mem n.toNat) = some c) :
    my_alloc fuel s n = Res.ok (c + META_SIZE) { s with mem := set_free s.mem c 0 } := by
  have hcl : c ∈ l := List.mem_of_find?_eq_some hc
  have hl : l ≠ [] := List.ne_nil_of_mem hcl
  obtain ⟨hcn, _, hcw⟩ := WF_block_bound h hcl
  obtain ⟨last2, hfind⟩ := find_free_block_hit h fuel n.toNat s.global_base hf hc
  unfold my_alloc
  rw [if_neg (by omega), if_neg (WF_base_ne_null h hl), size_t_of_int_eq n h0 h1, hfind]
  simp only []
  rw [if_neg hcn, ptr_succ_eq c hcw]

/-- A request that no block of the chain can serve, with the OS granting the extension, puts
a new block at the old break, linked after the tail of the chain. -/
theorem my_alloc_miss {s : State} {pre : List Nat} {tail : Nat} (h : WF s (pre ++ [tail]))
    (fuel : Nat) (n : Int) (h0 : 0 ≤ n) (h1 : n < 2147483648)
    (hf : (pre ++ [tail]).length < fuel)
    (hc : (pre ++ [tail]).find? (fits s.mem n.toNat) = none)
    (hroom : s.brk + n.toNat + META_SIZE ≤ s.limit) :
    my_alloc fuel s n = Res.ok (s.brk + META_SIZE)
      { s with
        brk := s.brk + (n.toNat + 24)
        mem := set_free (set_next (set_size (set_next s.mem tail s.brk) s.brk n.toNat)
          s.brk NULL) s.brk 0 } := by
  have htl : tail ∈ pre ++ [tail] := by simp
  have htn := (WF_block_bound h htl).1
  have hfind := find_free_block_miss h fuel n.toNat s.global_base hf hc
  have hsz : n.toNat < 2147483648 := by omega
  have hb := h.brk_pos
  have hlim := h.limit_lt
  unfold my_alloc
  rw [if_neg (by omega), if_neg (WF_base_ne_null h (by simp)), size_t_of_int_eq n h0 h1, hfind]
  simp only []
  rw [if_pos trivial, request_block_grant s tail n.toNat hsz hroom hlim]
  simp only []
  rw [if_neg (by simp only [NULL]; omega), if_pos htn, ptr_succ_eq]
  simp only [META_SIZE, WORD, SIZE_MAX] at *
  omega

/-- A request that no block of the chain can serve, with the OS refusing the extension, ends
in the failed assertion of `request_block`. -/
theorem my_alloc_miss_refuse {s : State} {pre : List Nat} {tail : Nat}
    (h : WF s (pre ++ [tail])) (fuel : Nat) (n : Int) (h0 : 0 ≤ n) (h1 : n < 2147483648)
    (hf : (pre ++ [tail]).length < fuel)
    (hc : (pre ++ [tail]).find? (fits s.mem n.toNat) = none)
    (hroom : s.limit < s.brk + n.toNat + META_SIZE) :
    my_alloc fuel s n = Res.abort := by
  have hfind := find_free_block_miss h fuel n.toNat s.global_base hf hc
  have hsz : n.toNat < 2147483648 := by omega
  have hb : s.brk ≠ SBRK_FAIL := by
    have h1 := h.brk_le
    have h2 := h.limit_lt
    simp only [SBRK_FAIL, SIZE_MAX] at *
    omega
  unfold my_alloc
  rw [if_neg (by omega), if_neg (WF_base_ne_null h (by simp)), size_t_of_int_eq n h0 h1, hfind]
  simp only []
  rw [if_pos trivial, request_block_refuse s tail n.toNat hsz hroom hb]

/-- First use with the OS granting the extension: the new block sits at the old break and
becomes the head of the chain. -/
theorem my_alloc_first (s : State) (fuel : Nat) (n : Int) (h0 : 0 ≤ n) (h1 : n < 2147483648)
    (hbase : s.global_base = NULL) (hb : 0 < s.brk) (hlim : s.limit < SIZE_MAX)
    (hroom : s.brk + n.toNat + META_SIZE ≤ s.limit) :
    my_alloc fuel s n = Res.ok (s.brk + META_SIZE)
      { s with
        brk := s.brk + (n.toNat + 24)
        mem := set_free (set_next (set_size s.mem s.brk n.toNat) s.brk NULL) s.brk 0
        global_base := s.brk } := by
  have hsz : n.toNat < 2147483648 := by omega
  unfold my_alloc
  rw [if_neg (by omega), if_pos hbase, size_t_of_int_eq n h0 h1,
    request_block_grant s NULL n.toNat hsz hroom hlim]
  simp only []
  rw [if_neg (by simp only [NULL]; omega), if_neg (by simp), ptr_succ_eq]
  simp only [META_SIZE, WORD, SIZE_MAX] at *
  omega

/-! ## The header written by `request_block` -/

theorem set_size_off (m : Nat → Nat) (b v x : Nat) (h : x < b ∨ b + 8 ≤ x) :
    set_size m b v x = m x :=
  store_off m b 8 v x h

theorem set_next_off (m : Nat → Nat) (b v x : Nat) (h : x < b + 8 ∨ b + 16 ≤ x) :
    set_next m b v x = m x :=
  store_off m (b + 8) 8 v x (by omega)

theorem new_header_off (m : Nat → Nat) (nb sz x : Nat) (h : x < nb ∨ nb + 20 ≤ x) :
    set_free (set_next (set_size m nb sz) nb NULL) nb 0 x = m x := by
  rw [set_free_off _ _ _ _ (by omega), set_next_off _ _ _ _ (by omega),
    set_size_off _ _ _ _ (by omega)]

theorem new_header_size (m : Nat → Nat) (nb sz : Nat) (hsz : sz < WORD) :
    get_size (set_free (set_next (set_size m nb sz) nb NULL) nb 0) nb = sz := by
  have e : get_size (set_free (set_next (set_size m nb sz) nb NULL) nb 0) nb =
      get_size (set_size m nb sz) nb := by
    apply get_size_congr
    intro x h1 h2
    rw [set_free_off _ _ _ _ (by omega), set_next_off _ _ _ _ (by omega)]
  rw [e]
  unfold get_size set_size
  rw [load_store_same]
  exact Nat.mod_eq_of_lt (by simpa [WORD] using hsz)

theorem new_header_next (m : Nat → Nat) (nb sz : Nat) :
    get_next (set_free (set_next (set_size m nb sz) nb NULL) nb 0) nb = NULL := by
  have e : get_next (set_free (set_next (set_size m nb sz) nb NULL) nb 0) nb =
      get_next (set_next (set_size m nb sz) nb NULL) nb := by
    apply get_next_congr
    intro x h1 h2
    rw [set_free_off _ _ _ _ (by omega)]
  rw [e]
  unfold get_next set_next
  rw [load_store_same]
  simp [NULL]

theorem new_header_free (m : Nat → Nat) (nb sz : Nat) :
    get_free (set_free (set_next (set_size m nb sz) nb NULL) nb 0) nb = 0 :=
  get_free_set_free _ nb 0 (by decide)

/-! ## Well-formedness is kept by a chain extension -/

theorem WF_grow_first (s : State) (sz : Nat) (hsz : sz < 2147483648) (hb : 0 < s.brk) (hlim : s.limit < SIZE_MAX)
    (hroom : s.brk + sz + META_SIZE ≤ s.limit) :
    WF { s with
        brk := s.brk + (sz + 24)
        mem := set_free (set_next (set_size s.mem s.brk sz) s.brk NULL) s.brk 0
        global_base := s.brk } [s.brk] := by
  have hs := new_header_size s.mem s.brk sz (by simp only [WORD]; omega)
  have hn := new_header_next s.mem s.brk sz
  simp only [META_SIZE] at hroom
  refine ⟨?_, ?_, hlim, ?_, ?_, ?_⟩
  · show 0 < s.brk + (sz + 24)
    omega
  · show s.brk + (sz + 24) ≤ s.limit
    omega
  · exact ⟨rfl, by simp only [NULL]; omega, hn⟩
  · intro b hb1
    rw [List.mem_singleton.mp hb1]
    show s.brk + META_SIZE + get_size _ s.brk ≤ s.brk + (sz + 24)
    rw [hs]
    simp only [META_SIZE]
    omega
  · exact List.pairwise_singleton _ _

theorem WF_grow_snoc {s : State} {pre : List Nat} {tail : Nat} (h : WF s (pre ++ [tail]))
    (sz : Nat) (hsz : sz < 2147483648) (hroom : s.brk + sz + META_SIZE ≤ s.limit) :
    WF { s with
        brk := s.brk + (sz + 24)
        mem := set_free (set_next (set_size (set_next s.mem tail s.brk) s.brk sz)
          s.brk NULL) s.brk 0 } (pre ++ [tail] ++ [s.brk]) := by
  have hs := new_header_size (set_next s.mem tail s.brk) s.brk sz (by simp only [WORD]; omega)
  have hn := new_header_next (set_next s.mem tail s.brk) s.brk sz
  have hb := h.brk_pos
  have htl : tail ∈ pre ++ [tail] := by simp
  have hbound : ∀ b ∈ pre ++ [tail], b + 24 + get_size s.mem b ≤ s.brk := fun b hb1 => by
    have := h.inb b hb1
    simpa [META_SIZE] using this
  -- bytes outside the tail's `next` field and the new header are untouched
  have hoff : ∀ x, (x < tail + 8 ∨ tail + 16 ≤ x) → x < s.brk →
      set_free (set_next (set_size (set_next s.mem tail s.brk) s.brk sz) s.brk NULL) s.brk 0 x
        = s.mem x := fun x h1 h2 => by
    rw [new_header_off _ _ _ _ (Or.inl h2), set_next_off _ _ _ _ h1]
  have hsize : ∀ b ∈ pre ++ [tail],
      get_size (set_free (set_next (set_size (set_next s.mem tail s.brk) s.brk sz)
        s.brk NULL) s.brk 0) b = get_size s.mem b := fun b hb1 => by
    apply get_size_congr
    intro x h1 h2
    have := hbound b hb1
    apply hoff x _ (by omega)
    by_cases e : b = tail
    · left; omega
    · have := WF_apart h hb1 htl e
      simp only [META_SIZE] at this
      omega
  have hnodup : ∀ b ∈ pre, b ≠ tail := fun b hb1 e => by
    have hp := h.sep
    rw [List.pairwise_append] at hp
    have := hp.2.2 b hb1 tail (by simp)
    simp only [META_SIZE] at this
    omega
  have hnext : ∀ b ∈ pre,
      get_next (set_free (set_next (set_size (set_next s.mem tail s.brk) s.brk sz)
        s.brk NULL) s.brk 0) b = get_next s.mem b := fun b hb1 => by
    have hb2 : b ∈ pre ++ [tail] := List.mem_append_left _ hb1
    apply get_next_congr
    intro x h1 h2
    have := hbound b hb2
    apply hoff x _ (by omega)
    have := WF_apart h hb2 htl (hnodup b hb1)
    simp only [META_SIZE] at this
    omega
  have hlink : get_next (set_free (set_next (set_size (set_next s.mem tail s.brk) s.brk sz)
        s.brk NULL) s.brk 0) tail = s.brk := by
    have e : get_next (set_free (set_next (set_size (set_next s.mem tail s.brk) s.brk sz)
        s.brk NULL) s.brk 0) tail = get_next (set_next s.mem tail s.brk) tail := by
      apply get_next_congr
      intro x h1 h2
      have := hbound tail htl
      exact new_header_off _ _ _ _ (by omega)
    rw [e]
    unfold get_next set_next
    rw [load_store_same]
    have h1 := h.brk_le
    have h2 := h.limit_lt
    simp only [SIZE_MAX] at h2
    exact Nat.mod_eq_of_lt (by norm_num; omega)
  simp only [META_SIZE] at hroom
  refine ⟨?_, ?_, h.limit_lt, ?_, ?_, ?_⟩
  · show 0 < s.brk + (sz + 24)
    omega
  · show s.brk + (sz + 24) ≤ s.limit
    omega
  · exact Chain_snoc s.mem _ tail s.brk pre s.global_base h.chain hnext hlink
      (by simp only [NULL]; omega) hn
  · intro b hb1
    show b + META_SIZE + get_size _ b ≤ s.brk + (sz + 24)
    rcases List.mem_append.mp hb1 with hb2 | hb2
    · rw [hsize b hb2]
      have := hbound b hb2
      simp only [META_SIZE]
      omega
    · rw [List.mem_singleton.mp hb2, hs]
      simp only [META_SIZE]
      omega
  · rw [List.pairwise_append]
    refine ⟨?_, List.pairwise_singleton _ _, ?_⟩
    · refine h.sep.imp_of_mem ?_
      intro b c hb1 _ hbc
      show b + META_SIZE + get_size _ b ≤ c
      rw [hsize b hb1]
      exact hbc
    · intro b hb1 c hc1
      rw [List.mem_singleton.mp hc1]
      show b + META_SIZE + get_size _ b ≤ s.brk
      rw [hsize b hb1]
      exact h.inb b hb1

/-! ## `freee` and the outcome of `sbrk` -/

theorem freee_in_use (s : State) (b : Nat) (hw : b + META_SIZE < WORD)
    (hfree : get_free s.mem b = 0) :
    freee s (b + META_SIZE) = Res.ok () { s with mem := set_free s.mem b 1 } := by
  have e : ptr_pred (b + META_SIZE) = b := by
    have := ptr_pred_succ b hw
    rwa [ptr_succ_eq b hw] at this
  unfold freee
  rw [if_neg (by simp [META_SIZE, NULL]), e, if_neg (by simp [hfree])]

theorem sbrk_granted_room (s : State) (n : Int) (h0 : 0 ≤ n)
    (hext : (sbrk s (n + 24)).1 ≠ SBRK_FAIL) : s.brk + n.toNat + META_SIZE ≤ s.limit := by
  unfold sbrk at hext
  rw [if_neg (by omega)] at hext
  by_cases hc : 0 ≤ (s.brk : Int) + (n + 24) ∧ (s.brk : Int) + (n + 24) ≤ (s.limit : Int)
  · simp only [META_SIZE]
    omega
  · rw [if_neg hc] at hext
    exact absurd rfl hext

/-! ## First use and negative sizes (C1, C2) -/

/-- C1: on first use (`global_base` is `NULL`), for every size `n ≥ 0` for which the break
extension succeeds, `my_alloc(n)` returns the non-null payload address `p` = pre-call break +
`META_SIZE`, the post-call break minus `p` is exactly `n`, and the chain head becomes the block
at the old break with `size = n`, `next = NULL`, `free = 0`. -/
theorem my_alloc_first_use (fuel : Nat) (s : State) (n : Int)
    (hbrk : 0 < s.brk) (hlim : s.limit < SIZE_MAX) (hbase : s.global_base = NULL)
    (h0 : 0 ≤ n) (h1 : n < 2147483648) (hext : (sbrk s (n + 24)).1 ≠ SBRK_FAIL) :
    ∃ s2, my_alloc fuel s n = Res.ok (s.brk + META_SIZE) s2 ∧
      s.brk + META_SIZE ≠ NULL ∧
      (s2.brk : Int) - ((s.brk + META_SIZE : Nat) : Int) = n ∧
      s2.global_base = s.brk ∧
      ptr_pred (s.brk + META_SIZE) = s2.global_base ∧
      (get_size s2.mem s2.global_base : Int) = n ∧
      get_next s2.mem s2.global_base = NULL ∧
      get_free s2.mem s2.global_base = 0 := by
  have hroom := sbrk_granted_room s n h0 hext
  have hw : s.brk + META_SIZE < WORD := by
    simp only [META_SIZE, WORD, SIZE_MAX] at *
    omega
  refine ⟨_, my_alloc_first s fuel n h0 h1 hbase hbrk hlim hroom, ?_, ?_, rfl, ?_, ?_, ?_, ?_⟩
  · simp [META_SIZE, NULL]
  · show ((s.brk + (n.toNat + 24) : Nat) : Int) - ((s.brk + META_SIZE : Nat) : Int) = n
    simp only [META_SIZE]
    omega
  · have := ptr_pred_succ s.brk hw
    rwa [ptr_succ_eq s.brk hw] at this
  · show (get_size (set_free (set_next (set_size s.mem s.brk n.toNat) s.brk NULL) s.brk 0)
      s.brk : Int) = n
    rw [new_header_size _ _ _ (by simp only [WORD]; omega)]
    omega
  · exact new_header_next _ _ _
  · exact new_header_free _ _ _

theorem my_alloc_first_use_witness :
    (0 < fresh.brk ∧ fresh.limit < SIZE_MAX ∧ fresh.global_base = NULL ∧ (0 : Int) ≤ 50 ∧
      (50 : Int) < 2147483648 ∧ (sbrk fresh (50 + 24)).1 ≠ SBRK_FAIL) ∧
    ∃ s2, my_alloc 1 fresh 50 = Res.ok (fresh.brk + META_SIZE) s2 ∧
      fresh.brk + META_SIZE ≠ NULL ∧
      (s2.brk : Int) - ((fresh.brk + META_SIZE : Nat) : Int) = 50 ∧
      s2.global_base = fresh.brk ∧
      ptr_pred (fresh.brk + META_SIZE) = s2.global_base ∧
      (get_size s2.mem s2.global_base : Int) = 50 ∧
      get_next s2.mem s2.global_base = NULL ∧
      get_free s2.mem s2.global_base = 0 :=
  ⟨⟨by decide, by decide, rfl, by decide, by decide, by decide⟩,
    my_alloc_first_use 1 fresh 50 (by decide) (by decide) rfl (by decide) (by decide)
      (by decide)⟩

/-- C2: for every negative size and every allocator state, `my_alloc(size)` returns `NULL`
and the state afterwards is the state before: the break, `global_base` and every byte of
memory (hence every block of the chain) are unchanged. -/
theorem my_alloc_negative (fuel : Nat) (s : State) (size : Int) (hneg : size < 0) :
    my_alloc fuel s size = Res.ok NULL s := by
  unfold my_alloc
  rw [if_pos hneg]

theorem my_alloc_negative_witness :
    ((-1 : Int) < 0) ∧ my_alloc 0 fresh (-1) = Res.ok NULL fresh :=
  ⟨by decide, my_alloc_negative 0 fresh (-1) (by decide)⟩

/-! ## Release followed by allocation -/

theorem WF_fields_set_free {s : State} {l : List Nat} (h : WF s l) {c : Nat} (hc : c ∈ l)
    (v : Nat) {b : Nat} (hb : b ∈ l) :
    get_size (set_free s.mem c v) b = get_size s.mem b ∧
    get_next (set_free s.mem c v) b = get_next s.mem b ∧
    (b ≠ c → get_free (set_free s.mem c v) b = get_free s.mem b) := by
  have hap : b ≠ c → b + 24 ≤ c ∨ c + 24 ≤ b := fun e => by
    have := WF_apart h hb hc e
    simp only [META_SIZE] at this
    omega
  refine ⟨?_, ?_, ?_⟩
  · apply get_size_congr
    intro x h1 h2
    apply set_free_off
    by_cases e : b = c
    · left; omega
    · have := hap e
      omega
  · apply get_next_congr
    intro x h1 h2
    apply set_free_off
    by_cases e : b = c
    · left; omega
    · have := hap e
      omega
  · intro e
    apply get_free_congr
    intro x h1 h2
    apply set_free_off
    have := hap e
    omega

/-- Releasing an in-use block `b` of a well-formed chain and then asking for `m` bytes that
`b` can hold: the release succeeds, the search hits the first block `c` of the chain that
passes the test, the break stays and the chain stays well-formed. -/
theorem free_then_alloc {s : State} {l : List Nat} (h : WF s l) {b : Nat} (hb : b ∈ l)
    (hfree : get_free s.mem b = 0) (fuel : Nat) (m : Int) (hm0 : 0 ≤ m)
    (hm : m.toNat ≤ get_size s.mem b) (hm1 : m < 2147483648) (hf : l.length < fuel) :
    ∃ c, l.find? (fits (set_free s.mem b 1) m.toNat) = some c ∧
      freee s (b + META_SIZE) = Res.ok () { s with mem := set_free s.mem b 1 } ∧
      my_alloc fuel { s with mem := set_free s.mem b 1 } m =
        Res.ok (c + META_SIZE) { s with mem := set_free (set_free s.mem b 1) c 0 } ∧
      WF { s with mem := set_free (set_free s.mem b 1) c 0 } l := by
  have hw := (WF_block_bound h hb).2.2
  have hW2 : WF { s with mem := set_free s.mem b 1 } l := WF_set_free h hb 1
  have hbfit : fits (set_free s.mem b 1) m.toNat b = true := by
    unfold fits
    rw [get_free_set_free _ _ 1 (by decide), (WF_fields_set_free h hb 1 hb).1]
    simp only [decide_eq_true_eq]
    omega
  cases hfind : l.find? (fits (set_free s.mem b 1) m.toNat) with
  | none =>
    have := List.find?_eq_none.mp hfind b hb
    exact absurd hbfit this
  | some c =>
    have hcl : c ∈ l := List.mem_of_find?_eq_some hfind
    exact ⟨c, rfl, freee_in_use s b hw hfree, my_alloc_hit hW2 fuel m hm0 hm1 hf hfind,
      WF_set_free hW2 hcl 0⟩

/-! ## Release, then allocate again (C3, C4) -/

/-- C3: starting from the empty allocator, for all sizes `0 ≤ m ≤ n` (the OS granting the one
break extension): `p = my_alloc(n); freee(p); q = my_alloc(m)` gives `q = p`, the second
`my_alloc` does not move the break, the chain still has exactly one block, and that block's
`size` field is still `n`. -/
theorem alloc_free_alloc_reuses (f1 f2 : Nat) (s : State) (n m : Int)
    (hbrk : 0 < s.brk) (hlim : s.limit < SIZE_MAX) (hbase : s.global_base = NULL)
    (hm0 : 0 ≤ m) (hmn : m ≤ n) (hn : n < 2147483648)
    (hext : (sbrk s (n + 24)).1 ≠ SBRK_FAIL) (hf2 : 2 ≤ f2) :
    ∃ p s1 s2 s3, my_alloc f1 s n = Res.ok p s1 ∧ p ≠ NULL ∧
      freee s1 p = Res.ok () s2 ∧
      my_alloc f2 s2 m = Res.ok p s3 ∧
      s3.brk = s2.brk ∧
      Chain s3.mem s3.global_base [ptr_pred p] ∧
      (get_size s3.mem (ptr_pred p) : Int) = n := by
  have h0 : 0 ≤ n := le_trans hm0 hmn
  have hroom := sbrk_granted_room s n h0 hext
  have hsz : n.toNat < 2147483648 := by omega
  have hw : s.brk + META_SIZE < WORD := by
    simp only [META_SIZE, WORD, SIZE_MAX] at *
    omega
  have hpp : ptr_pred (s.brk + META_SIZE) = s.brk := by
    have := ptr_pred_succ s.brk hw
    rwa [ptr_succ_eq s.brk hw] at this
  have hA := my_alloc_first s f1 n h0 hn hbase hbrk hlim hroom
  have hW1 := WF_grow_first s n.toNat hsz hbrk hlim hroom
  have hmem : s.brk ∈ [s.brk] := List.mem_singleton_self s.brk
  have hsize1 := new_header_size s.mem s.brk n.toNat (by simp only [WORD]; omega)
  obtain ⟨c, hfind, hF, hA2, hW3⟩ := free_then_alloc hW1 hmem
    (new_header_free s.mem s.brk n.toNat) f2 m hm0 (by rw [hsize1]; omega) (by omega)
    (by simpa using hf2)
  have hc : c = s.brk := List.mem_singleton.mp (List.mem_of_find?_eq_some hfind)
  subst hc
  refine ⟨s.brk + META_SIZE, _, _, _, hA, by simp [META_SIZE, NULL], hF, hA2, rfl, ?_, ?_⟩
  · rw [hpp]
    exact hW3.chain
  · rw [hpp]
    show (get_size (set_free (set_free _ s.brk 1) s.brk 0) s.brk : Int) = n
    rw [get_size_congr _ _ s.brk (fun x _ h2 => set_free_off _ _ _ _ (by omega)),
      get_size_congr _ _ s.brk (fun x _ h2 => set_free_off _ _ _ _ (by omega)), hsize1]
    omega

theorem alloc_free_alloc_reuses_witness :
    (0 < fresh.brk ∧ fresh.limit < SIZE_MAX ∧ fresh.global_base = NULL ∧ (0 : Int) ≤ 30 ∧
      (30 : Int) ≤ 50 ∧ (50 : Int) < 2147483648 ∧
      (sbrk fresh (50 + 24)).1 ≠ SBRK_FAIL ∧ 2 ≤ 2) ∧
    ∃ p s1 s2 s3, my_alloc 0 fresh 50 = Res.ok p s1 ∧ p ≠ NULL ∧
      freee s1 p = Res.ok () s2 ∧
      my_alloc 2 s2 30 = Res.ok p s3 ∧
      s3.brk = s2.brk ∧
      Chain s3.mem s3.global_base [ptr_pred p] ∧
      (get_size s3.mem (ptr_pred p) : Int) = 50 :=
  ⟨⟨by decide, by decide, rfl, by decide, by decide, by decide, by decide, by decide⟩,
    alloc_free_alloc_reuses 0 2 fresh 50 30 (by decide) (by decide) rfl (by decide)
      (by decide) (by decide) (by decide) (by decide)⟩

/-- C4, as stated, fails: after `a = my_alloc(50); b = my_alloc(50); freee(a)` the pointer
`b = 4194` is in use with recorded size 50, yet `freee(b); my_alloc(30)` returns `a = 4120`,
the earlier free block, not `b`. -/
theorem free_then_alloc_returns_earlier_block :
    (my_alloc 2 fresh 50).val? = some 4120 ∧
    (my_alloc 2 ((my_alloc 2 fresh 50).st fresh) 50).val? = some 4194 ∧
    (freee ((my_alloc 2 ((my_alloc 2 fresh 50).st fresh) 50).st fresh) 4120).val? = some () ∧
    get_free two_blocks.mem (ptr_pred 4194) = 0 ∧
    get_size two_blocks.mem (ptr_pred 4194) = 50 ∧
    (freee two_blocks 4194).val? = some () ∧
    (my_alloc 3 ((freee two_blocks 4194).st two_blocks) 30).val? = some 4120 ∧
    (4120 : Nat) ≠ 4194 := by decide

/-- C4 (amended): in a well-formed state with chain `l`, for an in-use block `b` of the chain
with payload pointer `p = b + META_SIZE` and a request `0 ≤ m ≤ b->size`: `freee(p)` succeeds
and `my_alloc(m)` then returns the payload of the first block `c` in chain order that is free
with `size ≥ m`; `c` is `b` itself whenever no block ahead of `b` passes that test. The break
is not moved and the chain is still `l`. -/
theorem free_then_alloc_first_fit (fuel : Nat) (s : State) (l : List Nat) (b : Nat) (m : Int)
    (hwf : WF s l) (hb : b ∈ l) (hinuse : get_free s.mem b = 0) (hm0 : 0 ≤ m)
    (hm : m ≤ (get_size s.mem b : Int)) (hm1 : m < 2147483648) (hf : l.length < fuel) :
    ∃ c s2 s3, freee s (b + META_SIZE) = Res.ok () s2 ∧
      my_alloc fuel s2 m = Res.ok (c + META_SIZE) s3 ∧
      l.find? (fits s2.mem m.toNat) = some c ∧
      (∀ pre post, l = pre ++ b :: post →
        (∀ x ∈ pre, fits s2.mem m.toNat x = false) → c = b) ∧
      s3.brk = s.brk ∧
      Chain s3.mem s3.global_base l := by
  obtain ⟨c, hfind, hF, hA, hW⟩ := free_then_alloc hwf hb hinuse fuel m hm0 (by omega) hm1 hf
  refine ⟨c, _, _, hF, hA, hfind, ?_, rfl, hW.chain⟩
  intro pre post hl hpre
  have hbfit : fits (set_free s.mem b 1) m.toNat b = true := by
    unfold fits
    rw [get_free_set_free _ _ 1 (by decide), (WF_fields_set_free hwf hb 1 hb).1]
    simp only [decide_eq_true_eq]
    omega
  have hfb : l.find? (fits (set_free s.mem b 1) m.toNat) = some b :=
    List.find?_eq_some.mpr ⟨hbfit, pre, post, hl, fun x hx => by simp [hpre x hx]⟩
  rw [hfind] at hfb
  exact Option.some.inj hfb

theorem free_then_alloc_first_fit_witness :
    (WF two_blocks [4096, 4170] ∧ 4170 ∈ [4096, 4170] ∧ get_free two_blocks.mem 4170 = 0 ∧
      (0 : Int) ≤ 30 ∧ (30 : Int) ≤ (get_size two_blocks.mem 4170 : Int) ∧
      (30 : Int) < 2147483648 ∧ [4096, 4170].length < 3) ∧
    ∃ c s2 s3, freee two_blocks (4170 + META_SIZE) = Res.ok () s2 ∧
      my_alloc 3 s2 30 = Res.ok (c + META_SIZE) s3 ∧
      [4096, 4170].find? (fits s2.mem (30 : Int).toNat) = some c ∧
      (∀ pre post, [4096, 4170] = pre ++ 4170 :: post →
        (∀ x ∈ pre, fits s2.mem (30 : Int).toNat x = false) → c = 4170) ∧
      s3.brk = two_blocks.brk ∧
      Chain s3.mem s3.global_base [4096, 4170] :=
  ⟨⟨⟨by decide, by decide, by decide, by decide, by decide, by decide⟩, by decide, by decide,
      by decide, by decide, by decide, by decide⟩,
    free_then_alloc_first_fit 3 two_blocks [4096, 4170] 4170 30
      ⟨by decide, by decide, by decide, by decide, by decide, by decide⟩ (by decide)
      (by decide) (by decide) (by decide) (by decide) (by decide)⟩

/-! ## Refused extension, `call_oc`, and the early exits of `reall_oc` (C5 to C9) -/

/-- C5 (code at the failing input): on a process whose break cannot be extended, `sbrk`
returns `(void*)-1`, and `request_block` and `my_alloc` end in the failed assertion
`assert((void*)block == request)` instead of returning `NULL`. -/
theorem refused_extension_aborts :
    (sbrk exhausted (intptr_of_size_t ((1 + META_SIZE) % WORD))).1 = SBRK_FAIL ∧
    request_block exhausted NULL 1 = Res.abort ∧
    my_alloc 1 exhausted 1 = Res.abort :=
  ⟨by decide, rfl, rfl⟩

/-- The round-trip test `size / nelem != elsize` detects exactly the products above
`SIZE_MAX`. -/
theorem overflow_test_iff (nelem elsize : Nat) :
    (nelem ≠ 0 ∧ (nelem * elsize % WORD) / nelem ≠ elsize) ↔ SIZE_MAX < nelem * elsize := by
  constructor
  · rintro ⟨h0, hne⟩
    by_contra hlt
    have hlt2 : nelem * elsize < WORD := by
      simp only [SIZE_MAX, WORD] at *
      omega
    rw [Nat.mod_eq_of_lt hlt2, Nat.mul_div_cancel_left elsize (Nat.pos_of_ne_zero h0)] at hne
    exact hne rfl
  · intro hgt
    have h0 : nelem ≠ 0 := by
      rintro rfl
      simp at hgt
    refine ⟨h0, ?_⟩
    have hmod : nelem * elsize % WORD < WORD := Nat.mod_lt _ (by decide)
    have hlt : nelem * elsize % WORD < elsize * nelem := by
      rw [Nat.mul_comm elsize nelem]
      simp only [SIZE_MAX, WORD] at *
      omega
    have := (Nat.div_lt_iff_lt_mul (Nat.pos_of_ne_zero h0)).mpr hlt
    omega

/-- C6: the overflow test of `call_oc` (`nelem != 0 && size / nelem != elsize` with
`size = nelem * elsize` computed modulo 2^64) is true exactly when the mathematical product
exceeds `SIZE_MAX`; every overflowing pair makes `call_oc` return `NULL` with the state
unchanged, and a non-overflowing pair always goes on to the `my_alloc` call. -/
theorem call_oc_overflow_test (nelem elsize : Nat) :
    ((nelem ≠ 0 ∧ (nelem * elsize % WORD) / nelem ≠ elsize) ↔ SIZE_MAX < nelem * elsize) ∧
    (SIZE_MAX < nelem * elsize →
      ∀ (fuel : Nat) (s : State), call_oc fuel s nelem elsize = Res.ok NULL s) ∧
    (nelem * elsize ≤ SIZE_MAX →
      ∀ (fuel : Nat) (s : State), call_oc fuel s nelem elsize =
        match my_alloc fuel s (int_of_size_t (nelem * elsize)) with
        | Res.ok ptr s1 =>
          if ptr = NULL then Res.ok NULL s1
          else Res.ok ptr { s1 with mem := memset s1.mem ptr 0 (nelem * elsize) }
        | Res.abort => Res.abort
        | Res.nofuel => Res.nofuel) := by
  have hiff := overflow_test_iff nelem elsize
  refine ⟨hiff, ?_, ?_⟩
  · intro hgt fuel s
    unfold call_oc
    rw [if_pos (hiff.mpr hgt)]
  · intro hle fuel s
    have hno : ¬ (nelem ≠ 0 ∧ (nelem * elsize % WORD) / nelem ≠ elsize) := fun h =>
      absurd (hiff.mp h) (by omega)
    have hmod : nelem * elsize % WORD = nelem * elsize :=
      Nat.mod_eq_of_lt (by simp only [SIZE_MAX, WORD] at *; omega)
    unfold call_oc
    rw [if_neg hno, hmod]

theorem call_oc_overflow_test_witness :
    (SIZE_MAX < 4294967296 * 4294967296 ∧ 3 * 5 ≤ SIZE_MAX) ∧
    call_oc 1 fresh 4294967296 4294967296 = Res.ok NULL fresh ∧
    call_oc 1 fresh 3 5 =
      (match my_alloc 1 fresh (int_of_size_t (3 * 5)) with
        | Res.ok ptr s1 =>
          if ptr = NULL then Res.ok NULL s1
          else Res.ok ptr { s1 with mem := memset s1.mem ptr 0 (3 * 5) }
        | Res.abort => Res.abort
        | Res.nofuel => Res.nofuel) :=
  ⟨⟨by decide, by decide⟩,
    (call_oc_overflow_test 4294967296 4294967296).2.1 (by decide) 1 fresh,
    (call_oc_overflow_test 3 5).2.2 (by decide) 1 fresh⟩

/-- C7: whenever `call_oc(nelem, elsize)` returns a non-null pointer `p`, every one of the
`nelem * elsize` bytes of the payload region starting at `p` reads as zero in the state
afterwards, whatever the region held before. -/
theorem call_oc_zero_filled (fuel : Nat) (s s2 : State) (nelem elsize p : Nat)
    (hret : call_oc fuel s nelem elsize = Res.ok p s2) (hp : p ≠ NULL) :
    ∀ i, i < nelem * elsize → s2.mem (p + i) = 0 ∧ load s2.mem (p + i) 1 = 0 := by
  have key : ∀ i, i < nelem * elsize → s2.mem (p + i) = 0 := by
    intro i hi
    unfold call_oc at hret
    by_cases hov : nelem ≠ 0 ∧ (nelem * elsize % WORD) / nelem ≠ elsize
    · rw [if_pos hov] at hret
      injection hret with h1 _
      exact absurd h1.symm hp
    · rw [if_neg hov] at hret
      have hle : nelem * elsize ≤ SIZE_MAX := by
        by_contra hgt
        exact hov ((overflow_test_iff nelem elsize).mpr (by omega))
      have hmod : nelem * elsize % WORD = nelem * elsize :=
        Nat.mod_eq_of_lt (by simp only [SIZE_MAX, WORD] at *; omega)
      rw [hmod] at hret
      cases hm : my_alloc fuel s (int_of_size_t (nelem * elsize)) with
      | abort => rw [hm] at hret; cases hret
      | nofuel => rw [hm] at hret; cases hret
      | ok ptr s1 =>
        rw [hm] at hret
        simp only [] at hret
        by_cases hz : ptr = NULL
        · rw [if_pos hz] at hret
          injection hret with h1 _
          exact absurd h1.symm hp
        · rw [if_neg hz] at hret
          injection hret with h1 h2
          subst h1
          rw [← h2]
          show memset s1.mem ptr 0 (nelem * elsize) (ptr + i) = 0
          unfold memset
          rw [if_pos (by omega)]
  intro i hi
  refine ⟨key i hi, ?_⟩
  simp [load, key i hi]

theorem call_oc_zero_filled_witness :
    (call_oc 2 dirty 2 4 = Res.ok 4120 ((call_oc 2 dirty 2 4).st dirty) ∧ (4120 : Nat) ≠ NULL ∧
      get_free dirty.mem 4096 = 1 ∧ dirty.mem 4120 = 171) ∧
    ∀ i, i < 2 * 4 → ((call_oc 2 dirty 2 4).st dirty).mem (4120 + i) = 0 ∧
      load ((call_oc 2 dirty 2 4).st dirty).mem (4120 + i) 1 = 0 :=
  ⟨⟨rfl, by decide, by decide, by decide⟩,
    call_oc_zero_filled 2 dirty ((call_oc 2 dirty 2 4).st dirty) 2 4 4120 rfl (by decide)⟩

/-- C8: for every `size_t` value `n` and every allocator state, `reall_oc(NULL, n)` is the
call `my_alloc(n)` on that state: same result, same state afterwards. The byte count reaches
the `int` parameter of `my_alloc` through the usual conversion, which is the identity for
`n ≤ INT_MAX`. -/
theorem reall_oc_null_is_my_alloc (fuel : Nat) (s : State) (n : Nat) :
    reall_oc fuel s NULL n = my_alloc fuel s (int_of_size_t n) ∧
    (n < 2147483648 → reall_oc fuel s NULL n = my_alloc fuel s (n : Int)) := by
  have h : reall_oc fuel s NULL n = my_alloc fuel s (int_of_size_t n) := by
    unfold reall_oc
    rw [if_pos rfl]
  refine ⟨h, fun hn => ?_⟩
  rw [h]
  congr 1
  unfold int_of_size_t
  have e : n % 4294967296 = n := by omega
  rw [e, if_pos hn]

theorem reall_oc_null_is_my_alloc_witness :
    ((50 : Nat) < 2147483648) ∧
    reall_oc 3 two_blocks NULL 50 = my_alloc 3 two_blocks (int_of_size_t 50) ∧
    reall_oc 3 two_blocks NULL 50 = my_alloc 3 two_blocks ((50 : Nat) : Int) :=
  ⟨by decide, (reall_oc_null_is_my_alloc 3 two_blocks 50).1,
    (reall_oc_null_is_my_alloc 3 two_blocks 50).2 (by decide)⟩

/-- C9: for every non-null payload pointer `p` whose block records size `s` and every
`new_size ≤ s`, `reall_oc(p, new_size)` returns `p` and the state afterwards is the state
before: the break, `global_base` and every byte of memory (chain, the block's `size` field,
payload bytes) are unchanged. -/
theorem reall_oc_enough_space (fuel : Nat) (s : State) (p new_size : Nat) (hp : p ≠ NULL)
    (hs : new_size ≤ get_size s.mem (ptr_pred p)) :
    reall_oc fuel s p new_size = Res.ok p s := by
  unfold reall_oc
  rw [if_neg hp, if_pos hs]

theorem reall_oc_enough_space_witness :
    ((4194 : Nat) ≠ NULL ∧ 30 ≤ get_size two_blocks.mem (ptr_pred 4194)) ∧
    reall_oc 0 two_blocks 4194 30 = Res.ok 4194 two_blocks :=
  ⟨⟨by decide, by decide⟩, reall_oc_enough_space 0 two_blocks 4194 30 (by decide) (by decide)⟩

/-! ## Writes inside a payload, and old blocks after an extension -/

/-- A memory change confined to the payload `[c + 24, c + 24 + c->size)` of a block of the
chain leaves the chain well-formed and every header field as it was. -/
theorem WF_payload_write {s : State} {l : List Nat} (h : WF s l) {c : Nat} (hc : c ∈ l)
    (m2 : Nat → Nat)
    (hm : ∀ x, (x < c + 24 ∨ c + 24 + get_size s.mem c ≤ x) → m2 x = s.mem x) :
    WF { s with mem := m2 } l ∧
    ∀ b ∈ l, get_size m2 b = get_size s.mem b ∧ get_next m2 b = get_next s.mem b ∧
      get_free m2 b = get_free s.mem b := by
  have hout : ∀ b ∈ l, ∀ x, b ≤ x → x < b + 24 → m2 x = s.mem x := by
    intro b hb x h1 h2
    apply hm
    by_cases e : b = c
    · left; omega
    · have := WF_apart h hb hc e
      simp only [META_SIZE] at this
      omega
  refine ⟨WF_congr h m2 (fun b hb x h1 h2 => hout b hb x h1 (by omega)), ?_⟩
  intro b hb
  exact ⟨get_size_congr _ _ b (fun x h1 h2 => hout b hb x h1 (by omega)),
    get_next_congr _ _ b (fun x h1 h2 => hout b hb x (by omega) (by omega)),
    get_free_congr _ _ b (fun x h1 h2 => hout b hb x (by omega) (by omega))⟩

/-- The blocks that were in the chain before an extension keep their `size` and `free`. -/
theorem grow_snoc_fields {s : State} {pre : List Nat} {tail : Nat}
    (h : WF s (pre ++ [tail])) (sz : Nat) {x : Nat} (hx : x ∈ pre ++ [tail]) :
    get_size (set_free (set_next (set_size (set_next s.mem tail s.brk) s.brk sz)
        s.brk NULL) s.brk 0) x = get_size s.mem x ∧
    get_free (set_free (set_next (set_size (set_next s.mem tail s.brk) s.brk sz)
        s.brk NULL) s.brk 0) x = get_free s.mem x := by
  have htl : tail ∈ pre ++ [tail] := by simp
  have hbound : x + 24 + get_size s.mem x ≤ s.brk := by
    have := h.inb x hx
    simpa [META_SIZE] using this
  have hap : x ≠ tail → x + 24 ≤ tail ∨ tail + 24 ≤ x := fun e => by
    have := WF_apart h hx htl e
    simp only [META_SIZE] at this
    omega
  have hoff : ∀ y, (y < tail + 8 ∨ tail + 16 ≤ y) → y < s.brk →
      set_free (set_next (set_size (set_next s.mem tail s.brk) s.brk sz) s.brk NULL) s.brk 0 y
        = s.mem y := fun y h1 h2 => by
    rw [new_header_off _ _ _ _ (Or.inl h2), set_next_off _ _ _ _ h1]
  constructor
  · apply get_size_congr
    intro y h1 h2
    apply hoff y _ (by omega)
    by_cases e : x = tail
    · left; omega
    · have := hap e
      omega
  · apply get_free_congr
    intro y h1 h2
    apply hoff y _ (by omega)
    by_cases e : x = tail
    · right; omega
    · have := hap e
      omega

/-- A request that some free block of a well-formed chain can hold is served from the chain:
`my_alloc` returns the payload of the first fitting block and leaves the break alone. -/
theorem my_alloc_reuses {s : State} {l : List Nat} (h : WF s l) {b : Nat} (hb : b ∈ l)
    (hfree : get_free s.mem b ≠ 0) (fuel : Nat) (m : Int) (hm0 : 0 ≤ m)
    (hm : m.toNat ≤ get_size s.mem b) (hm1 : m < 2147483648) (hf : l.length < fuel) :
    ∃ c, l.find? (fits s.mem m.toNat) = some c ∧
      my_alloc fuel s m = Res.ok (c + META_SIZE) { s with mem := set_free s.mem c 0 } := by
  have hbfit : fits s.mem m.toNat b = true := by
    unfold fits
    simp only [decide_eq_true_eq]
    exact ⟨hfree, hm⟩
  cases hfind : l.find? (fits s.mem m.toNat) with
  | none =>
    have := List.find?_eq_none.mp hfind b hb
    exact absurd hbfit this
  | some c => exact ⟨c, rfl, my_alloc_hit h fuel m hm0 hm1 hf hfind⟩

theorem int_of_size_t_small (n : Nat) (hn : n < 2147483648) : int_of_size_t n = (n : Int) := by
  unfold int_of_size_t
  have e : n % 4294967296 = n := by omega
  rw [e, if_pos hn]

theorem memcpy_off (m : Nat → Nat) (dst src n x : Nat) (h : x < dst ∨ dst + n ≤ x) :
    memcpy m dst src n x = m x := by
  unfold memcpy
  rw [if_neg (by omega)]

/-! ## What a successful `my_alloc` does to a well-formed chain -/

/-- On a well-formed non-empty chain and an `int` size `n ≥ 0`, `my_alloc` either ends in
the failed assertion (the OS refused the extension) or returns the payload of a block `c` of
the chain afterwards; `c` is marked in use, records at least `n` bytes, was free if it
already existed, and the old blocks keep their `size` and, `c` apart, their `free`. -/
theorem my_alloc_spec {s : State} {l : List Nat} (h : WF s l) (hl : l ≠ []) (fuel : Nat)
    (n : Int) (h0 : 0 ≤ n) (h1 : n < 2147483648) (hf : l.length < fuel) :
    my_alloc fuel s n = Res.abort ∨
    ∃ c s1 l1, my_alloc fuel s n = Res.ok (c + META_SIZE) s1 ∧ WF s1 l1 ∧ c ∈ l1 ∧
      (l1 = l ∧ s1.brk = s.brk ∨ l1 = l ++ [c] ∧ c = s.brk) ∧
      get_free s1.mem c = 0 ∧ n.toNat ≤ get_size s1.mem c ∧
      (c ∈ l → get_free s.mem c ≠ 0) ∧
      (∀ x ∈ l, get_size s1.mem x = get_size s.mem x) ∧
      (∀ x ∈ l, x ≠ c → get_free s1.mem x = get_free s.mem x) := by
  cases hfind : l.find? (fits s.mem n.toNat) with
  | some c =>
    right
    have hcl : c ∈ l := List.mem_of_find?_eq_some hfind
    have hfit := List.find?_some hfind
    unfold fits at hfit
    simp only [decide_eq_true_eq] at hfit
    refine ⟨c, _, l, my_alloc_hit h fuel n h0 h1 hf hfind, WF_set_free h hcl 0, hcl,
      Or.inl ⟨rfl, rfl⟩, get_free_set_free _ c 0 (by decide), ?_, fun _ => hfit.1, ?_, ?_⟩
    · show n.toNat ≤ get_size (set_free s.mem c 0) c
      rw [(WF_fields_set_free h hcl 0 hcl).1]
      exact hfit.2
    · intro x hx
      exact (WF_fields_set_free h hcl 0 hx).1
    · intro x hx hne
      exact (WF_fields_set_free h hcl 0 hx).2.2 hne
  | none =>
    rcases List.eq_nil_or_concat l with e | ⟨pre, tail, e⟩
    · exact absurd e hl
    · rw [List.concat_eq_append] at e
      subst e
      by_cases hroom : s.brk + n.toNat + META_SIZE ≤ s.limit
      · right
        have hsz : n.toNat < 2147483648 := by omega
        have hnotin : s.brk ∉ pre ++ [tail] := fun hin => by
          have := h.inb s.brk hin
          simp only [META_SIZE] at this
          omega
        refine ⟨s.brk, _, pre ++ [tail] ++ [s.brk], my_alloc_miss h fuel n h0 h1 hf hfind hroom,
          WF_grow_snoc h n.toNat hsz hroom, by simp, Or.inr ⟨rfl, rfl⟩, new_header_free _ _ _,
          ?_, fun hin => absurd hin hnotin, ?_, ?_⟩
        · show n.toNat ≤ get_size (set_free _ s.brk 0) s.brk
          rw [new_header_size _ _ _ (by simp only [WORD]; omega)]
        · intro x hx
          exact (grow_snoc_fields h n.toNat hx).1
        · intro x hx _
          exact (grow_snoc_fields h n.toNat hx).2
      · left
        exact my_alloc_miss_refuse h fuel n h0 h1 hf hfind (by omega)

/-- Copying the payload of an in-use block `b` into the payload of another block `c` that
records at least as many bytes, then releasing `b`: the release succeeds, the chain stays
well-formed, `b` becomes free with its `size` kept and `c` keeps its flag. -/
theorem copy_then_free {s : State} {l : List Nat} (h : WF s l) {b c : Nat} (hb : b ∈ l)
    (hc : c ∈ l) (hbc : b ≠ c) (hinuse : get_free s.mem b = 0)
    (hcap : get_size s.mem b ≤ get_size s.mem c) :
    ∃ s2,
      freee
        { s with
          mem := memcpy s.mem (c + META_SIZE) (b + META_SIZE) (get_size s.mem b) }
        (b + META_SIZE) = Res.ok () s2 ∧
      WF s2 l ∧ s2.brk = s.brk ∧ get_free s2.mem b = 1 ∧
      get_size s2.mem b = get_size s.mem b ∧ get_free s2.mem c = get_free s.mem c := by
  obtain ⟨hW1, hfld⟩ := WF_payload_write h hc
    (memcpy s.mem (c + META_SIZE) (b + META_SIZE) (get_size s.mem b))
    (fun x hx => memcpy_off _ _ _ _ _ (by simp only [META_SIZE]; omega))
  have hw := (WF_block_bound h hb).2.2
  have hF := freee_in_use
    { s with mem := memcpy s.mem (c + META_SIZE) (b + META_SIZE) (get_size s.mem b) } b hw
    (by rw [← hinuse]; exact (hfld b hb).2.2)
  refine ⟨_, hF, WF_set_free hW1 hb 1, rfl, get_free_set_free _ b 1 (by decide), ?_, ?_⟩
  · show get_size (set_free _ b 1) b = get_size s.mem b
    rw [(WF_fields_set_free hW1 hb 1 hb).1]
    exact (hfld b hb).1
  · show get_free (set_free _ b 1) c = get_free s.mem c
    rw [(WF_fields_set_free hW1 hb 1 hc).2.2 (Ne.symm hbc)]
    exact (hfld c hc).2.2

/-- Growing resize with a size that survives the conversion to `int`: on a well-formed chain,
for an in-use block `b` and `b->size < new_size ≤ INT_MAX`, a non-null result `q` of
`reall_oc(b + 1, new_size)` differs from the old pointer, its block is in use, `b` is free
afterwards with its `size` kept, and a following `my_alloc(m)` with `0 ≤ m ≤ b->size` is
served from the chain without moving the break. -/
theorem reall_oc_grows (fuel : Nat) (s s2 : State) (l : List Nat) (b new_size q : Nat)
    (hwf : WF s l) (hb : b ∈ l) (hinuse : get_free s.mem b = 0)
    (hgt : get_size s.mem b < new_size) (hrange : new_size < 2147483648)
    (hf : l.length < fuel)
    (hret : reall_oc fuel s (b + META_SIZE) new_size = Res.ok q s2) (hq : q ≠ NULL) :
    q ≠ b + META_SIZE ∧
    ∃ l2, WF s2 l2 ∧ b ∈ l2 ∧ ptr_pred q ∈ l2 ∧
      get_free s2.mem (ptr_pred q) = 0 ∧
      get_free s2.mem b = 1 ∧ get_size s2.mem b = get_size s.mem b ∧
      ∀ (fuel2 : Nat) (m : Int), 0 ≤ m → m ≤ (get_size s.mem b : Int) → l2.length < fuel2 →
        ∃ r s3, my_alloc fuel2 s2 m = Res.ok r s3 ∧ r ≠ NULL ∧ s3.brk = s2.brk := by
  have hw := (WF_block_bound hwf hb).2.2
  have hpp : ptr_pred (b + META_SIZE) = b := by
    have := ptr_pred_succ b hw
    rwa [ptr_succ_eq b hw] at this
  unfold reall_oc at hret
  rw [if_neg (by simp [META_SIZE, NULL]), hpp, if_neg (by omega),
    int_of_size_t_small new_size hrange] at hret
  rcases my_alloc_spec hwf (List.ne_nil_of_mem hb) fuel (new_size : Int) (by omega) (by omega) hf
    with habort | ⟨c, s1, l1, hA, hW1, hcl1, hl1, hcfree, hcsize, hcwas, hsizes, hfrees⟩
  · rw [habort] at hret
    cases hret
  · have hbc : b ≠ c := fun e => hcwas (e ▸ hb) (e ▸ hinuse)
    have hbl1 : b ∈ l1 := by
      rcases hl1 with ⟨e, _⟩ | ⟨e, _⟩
      · rw [e]; exact hb
      · rw [e]; exact List.mem_append_left _ hb
    have hbfree1 : get_free s1.mem b = 0 := by rw [hfrees b hb hbc]; exact hinuse
    have hbsize1 : get_size s1.mem b = get_size s.mem b := hsizes b hb
    obtain ⟨s2', hF, hW2, hbrk2, hbfree2, hbsize2, hcfree2⟩ := copy_then_free hW1 hbl1 hcl1 hbc
      hbfree1 (by rw [hbsize1]; simp only [Int.toNat_ofNat] at hcsize; omega)
    have hcw := (WF_block_bound hW1 hcl1).2.2
    rw [hA] at hret
    dsimp only at hret
    rw [if_neg (by simp [META_SIZE, NULL]), hF] at hret
    simp only [] at hret
    injection hret with hq1 hs2
    subst hq1
    subst hs2
    have hpq : ptr_pred (c + META_SIZE) = c := by
      have := ptr_pred_succ c hcw
      rwa [ptr_succ_eq c hcw] at this
    refine ⟨fun e => hbc (by simp only [META_SIZE] at e; omega), l1, hW2, hbl1, ?_, ?_,
      hbfree2, by rw [hbsize2, hbsize1], ?_⟩
    · rw [hpq]; exact hcl1
    · rw [hpq, hcfree2]; exact hcfree
    · intro fuel2 m hm0 hm hf2
      obtain ⟨c2, _, hA2⟩ := my_alloc_reuses hW2 hbl1 (by rw [hbfree2]; decide) fuel2 m hm0
        (by rw [hbsize2, hbsize1]; omega) (by omega) hf2
      exact ⟨_, _, hA2, by simp [META_SIZE, NULL], rfl⟩

/-! ## Growing resize (C10) -/

/-- A run whose returned value is known is a normal return with that value. -/
theorem Res.eq_ok_of_val {α : Type} (r : Res α) (v : α) (d : State) (h : r.val? = some v) :
    r = Res.ok v (r.st d) := by
  cases r with
  | ok w s =>
    simp only [Res.val?, Option.some.injEq] at h
    rw [h]
    rfl
  | abort => simp [Res.val?] at h
  | nofuel => simp [Res.val?] at h

/-- The growing resize on a concrete chain: `reall_oc(4194, 60)` on `two_blocks` extends the
chain, returns `4268`, and leaves the old block free with its size 50. -/
theorem reall_oc_grows_example :
    (WF two_blocks [4096, 4170] ∧ 4170 ∈ [4096, 4170] ∧ get_free two_blocks.mem 4170 = 0 ∧
      get_size two_blocks.mem 4170 < 60 ∧ 60 < 2147483648 ∧ [4096, 4170].length < 3 ∧
      reall_oc 3 two_blocks (4170 + META_SIZE) 60 =
        Res.ok 4268 ((reall_oc 3 two_blocks (4170 + META_SIZE) 60).st two_blocks) ∧
      (4268 : Nat) ≠ NULL) ∧
    (4268 : Nat) ≠ 4170 + META_SIZE ∧
    get_free ((reall_oc 3 two_blocks (4170 + META_SIZE) 60).st two_blocks).mem 4170 = 1 ∧
    get_size ((reall_oc 3 two_blocks (4170 + META_SIZE) 60).st two_blocks).mem 4170 = 50 :=
  have hwf : WF two_blocks [4096, 4170] :=
    ⟨by decide, by decide, by decide, by decide, by decide, by decide⟩
  have h := reall_oc_grows 3 two_blocks
    ((reall_oc 3 two_blocks (4170 + META_SIZE) 60).st two_blocks) [4096, 4170] 4170 60 4268
    hwf (by decide) (by decide) (by decide) (by decide) (by decide)
    (Res.eq_ok_of_val _ 4268 two_blocks (by decide)) (by decide)
  ⟨⟨hwf, by decide, by decide, by decide, by decide, by decide,
      Res.eq_ok_of_val _ 4268 two_blocks (by decide), by decide⟩, h.1,
    by decide, by decide⟩

/-- C10 (code at the failing input): in the well-formed state `three_blocks` the pointer
`p = 4176` is in use and its block records size 40. `reall_oc(p, 4294967296)` hands
`(int)4294967296 = 0` to `my_alloc`, gets the free zero-size block `4120`, copies 40 bytes
into it and returns `4120`. Afterwards the block of `p` is marked free but its `size` field
reads 0, not 40, and a following `my_alloc(10)` extends the break from 4216 to 4250. -/
theorem reall_oc_wide_size_clobbers_old_block :
    WF three_blocks [4096, 4120, 4152] ∧
    get_free three_blocks.mem (ptr_pred 4176) = 0 ∧
    get_size three_blocks.mem (ptr_pred 4176) = 40 ∧
    int_of_size_t 4294967296 = 0 ∧
    (reall_oc 4 three_blocks 4176 4294967296).val? = some 4120 ∧
    get_free after_wide_resize.mem (ptr_pred 4176) = 1 ∧
    get_size after_wide_resize.mem (ptr_pred 4176) = 0 ∧
    after_wide_resize.brk = 4216 ∧
    (my_alloc 5 after_wide_resize 10).val? = some 4240 ∧
    ((my_alloc 5 after_wide_resize 10).st after_wide_resize).brk = 4250 :=
  ⟨⟨by decide, by decide, by decide, by decide, by decide, by decide⟩, by decide, by decide,
    by decide, by decide, by decide, by decide, by decide, by decide, by decide⟩

/-! ## Failed resize, double release and the frame of `freee` (C12 to C14) -/

/-- C13: `freee(p)` on a non-null `p` whose block is already marked free ends in the failed
assertion and does not return; in particular, when `freee(p)` has returned, a second
`freee(p)` right after it always ends in the failed assertion. -/
theorem freee_double_free_aborts (s : State) (p : Nat) (hp : p ≠ NULL) :
    (get_free s.mem (ptr_pred p) ≠ 0 → freee s p = Res.abort) ∧
    (∀ s1, freee s p = Res.ok () s1 → freee s1 p = Res.abort) := by
  have h1 : ∀ t : State, get_free t.mem (ptr_pred p) ≠ 0 → freee t p = Res.abort := by
    intro t ht
    unfold freee
    rw [if_neg hp, if_pos ht]
  refine ⟨h1 s, ?_⟩
  intro s1 hs1
  apply h1
  unfold freee at hs1
  rw [if_neg hp] at hs1
  by_cases hfree : get_free s.mem (ptr_pred p) ≠ 0
  · rw [if_pos hfree] at hs1
    cases hs1
  · rw [if_neg hfree] at hs1
    injection hs1 with _ h2
    rw [← h2]
    show get_free (set_free s.mem (ptr_pred p) 1) (ptr_pred p) ≠ 0
    rw [get_free_set_free _ _ 1 (by decide)]
    decide

theorem freee_double_free_aborts_witness :
    ((4120 : Nat) ≠ NULL ∧ get_free two_blocks.mem (ptr_pred 4120) ≠ 0 ∧
      (freee two_blocks 4194).val? = some ()) ∧
    freee two_blocks 4120 = Res.abort ∧
    freee ((freee two_blocks 4194).st two_blocks) 4194 = Res.abort :=
  ⟨⟨by decide, by decide, by decide⟩,
    (freee_double_free_aborts two_blocks 4120 (by decide)).1 (by decide),
    (freee_double_free_aborts two_blocks 4194 (by decide)).2 _
      (Res.eq_ok_of_val _ () two_blocks (by decide))⟩

/-- C14: `freee(NULL)` leaves the state unchanged, and `freee(p)` on an in-use block `b` of a
well-formed chain changes exactly one thing, the `free` flag of `b` from 0 to 1: the break,
`global_base`, the chain, every block's `size` and `next`, every other block's `free` flag and
every byte outside the four bytes of that flag are unchanged. -/
theorem freee_changes_one_flag (s : State) (l : List Nat) (b : Nat) (hwf : WF s l)
    (hb : b ∈ l) (hinuse : get_free s.mem b = 0) :
    freee s NULL = Res.ok () s ∧
    ∃ s2, freee s (b + META_SIZE) = Res.ok () s2 ∧
      s2.brk = s.brk ∧ s2.limit = s.limit ∧ s2.global_base = s.global_base ∧
      Chain s2.mem s2.global_base l ∧
      get_free s2.mem b = 1 ∧
      (∀ x ∈ l, get_size s2.mem x = get_size s.mem x ∧ get_next s2.mem x = get_next s.mem x) ∧
      (∀ x ∈ l, x ≠ b → get_free s2.mem x = get_free s.mem x) ∧
      (∀ a, a < b + 16 ∨ b + 20 ≤ a → s2.mem a = s.mem a) := by
  have hw := (WF_block_bound hwf hb).2.2
  refine ⟨by unfold freee; rw [if_pos rfl], _, freee_in_use s b hw hinuse, rfl, rfl, rfl,
    (WF_set_free hwf hb 1).chain, get_free_set_free _ b 1 (by decide), ?_, ?_, ?_⟩
  · intro x hx
    exact ⟨(WF_fields_set_free hwf hb 1 hx).1, (WF_fields_set_free hwf hb 1 hx).2.1⟩
  · intro x hx hne
    exact (WF_fields_set_free hwf hb 1 hx).2.2 hne
  · intro a ha
    exact set_free_off _ _ _ _ ha

theorem freee_changes_one_flag_witness :
    (WF two_blocks [4096, 4170] ∧ 4170 ∈ [4096, 4170] ∧ get_free two_blocks.mem 4170 = 0) ∧
    freee two_blocks NULL = Res.ok () two_blocks ∧
    ∃ s2, freee two_blocks (4170 + META_SIZE) = Res.ok () s2 ∧
      s2.brk = two_blocks.brk ∧ s2.limit = two_blocks.limit ∧
      s2.global_base = two_blocks.global_base ∧
      Chain s2.mem s2.global_base [4096, 4170] ∧
      get_free s2.mem 4170 = 1 ∧
      (∀ x ∈ [4096, 4170], get_size s2.mem x = get_size two_blocks.mem x ∧
        get_next s2.mem x = get_next two_blocks.mem x) ∧
      (∀ x ∈ [4096, 4170], x ≠ 4170 → get_free s2.mem x = get_free two_blocks.mem x) ∧
      (∀ a, a < 4170 + 16 ∨ 4170 + 20 ≤ a → s2.mem a = two_blocks.mem a) :=
  have hwf : WF two_blocks [4096, 4170] :=
    ⟨by decide, by decide, by decide, by decide, by decide, by decide⟩
  ⟨⟨hwf, by decide, by decide⟩,
    freee_changes_one_flag two_blocks [4096, 4170] 4170 hwf (by decide) (by decide)⟩

/-! ## The first-fit search and the tail it reports (C15, C16) -/

theorem fits_iff (mem : Nat → Nat) (size b : Nat) :
    fits mem size b = true ↔ (get_free mem b ≠ 0 ∧ get_size mem b ≥ size) := by
  unfold fits
  simp only [decide_eq_true_eq]

/-- In a chain the last block is the only one whose `next` is `NULL`. -/
theorem Chain_tail_next (mem : Nat → Nat) (tail : Nat) (pre : List Nat) : ∀ a : Nat,
    Chain mem a (pre ++ [tail]) →
    get_next mem tail = NULL ∧ ∀ x ∈ pre, get_next mem x ≠ NULL := by
  induction pre with
  | nil =>
    intro a h
    exact ⟨h.2.2, fun x hx => by simp at hx⟩
  | cons b t ih =>
    intro a h
    obtain ⟨_, _, h3⟩ := h
    obtain ⟨ht, hpre⟩ := ih _ h3
    refine ⟨ht, ?_⟩
    intro x hx
    rcases List.mem_cons.mp hx with e | hm
    · rw [e]
      -- the successor of `b` heads the rest of the chain, so it is not `NULL`
      cases t with
      | nil =>
        have h4 : get_next mem b = tail := h3.1
        rw [h4]
        exact h3.2.1
      | cons c u =>
        have h4 : get_next mem b = c := h3.1
        rw [h4]
        exact h3.2.1
    · exact hpre x hm

/-- In a chain each block's `next` is the block after it. -/
theorem Chain_link (mem : Nat → Nat) (tail nb : Nat) (pre : List Nat) : ∀ a : Nat,
    Chain mem a (pre ++ [tail] ++ [nb]) → get_next mem tail = nb := by
  induction pre with
  | nil =>
    intro a h
    exact h.2.2.1
  | cons b t ih =>
    intro a h
    exact ih _ h.2.2

/-- C15: for every chain and requested size, `find_free_block` returns the first block in
chain order with `free != 0` and `size >= size requested` (every block before it fails that
test, whatever comes later), and returns `NULL` exactly when no block of the chain passes the
test. -/
theorem find_free_block_first_fit (fuel : Nat) (s : State) (l : List Nat) (last size : Nat)
    (hchain : Chain s.mem s.global_base l) (hf : l.length < fuel) :
    ∃ r last2, find_free_block fuel s last size = some (r, last2) ∧
      (r = NULL ↔ ∀ b ∈ l, ¬ (get_free s.mem b ≠ 0 ∧ get_size s.mem b ≥ size)) ∧
      (r ≠ NULL → ∃ pre post, l = pre ++ r :: post ∧
        (get_free s.mem r ≠ 0 ∧ get_size s.mem r ≥ size) ∧
        ∀ x ∈ pre, ¬ (get_free s.mem x ≠ 0 ∧ get_size s.mem x ≥ size)) := by
  have hloop := find_free_loop_chain s.mem size l fuel s.global_base last hchain hf
  refine ⟨_, _, hloop, ?_, ?_⟩
  · cases hfind : l.find? (fits s.mem size) with
    | none =>
      simp only [Option.getD_none, true_iff]
      intro b hb
      have := List.find?_eq_none.mp hfind b hb
      rwa [fits_iff] at this
    | some c =>
      have hcl : c ∈ l := List.mem_of_find?_eq_some hfind
      have hcn := Chain_ne_null _ _ _ hchain c hcl
      have hcfit := (fits_iff _ _ _).mp (List.find?_some hfind)
      simp only [Option.getD_some]
      constructor
      · intro e
        exact absurd e hcn
      · intro hall
        exact absurd hcfit (hall c hcl)
  · intro hr
    cases hfind : l.find? (fits s.mem size) with
    | none =>
      rw [hfind] at hr
      exact absurd rfl hr
    | some c =>
      obtain ⟨hcfit, pre, post, hl, hpre⟩ := List.find?_eq_some.mp hfind
      simp only [Option.getD_some]
      refine ⟨pre, post, hl, (fits_iff _ _ _).mp hcfit, ?_⟩
      intro x hx
      have := hpre x hx
      rw [← fits_iff]
      simpa using this

theorem find_free_block_first_fit_witness :
    (Chain two_free.mem two_free.global_base [4096, 4170] ∧ [4096, 4170].length < 3 ∧
      get_free two_free.mem 4170 ≠ 0 ∧ get_size two_free.mem 4170 = 30 ∧
      get_size two_free.mem 4096 = 50 ∧
      find_free_block 3 two_free two_free.global_base 30 = some (4096, 4096)) ∧
    ∃ r last2, find_free_block 3 two_free two_free.global_base 30 = some (r, last2) ∧
      (r = NULL ↔ ∀ b ∈ [4096, 4170],
        ¬ (get_free two_free.mem b ≠ 0 ∧ get_size two_free.mem b ≥ 30)) ∧
      (r ≠ NULL → ∃ pre post, [4096, 4170] = pre ++ r :: post ∧
        (get_free two_free.mem r ≠ 0 ∧ get_size two_free.mem r ≥ 30) ∧
        ∀ x ∈ pre, ¬ (get_free two_free.mem x ≠ 0 ∧ get_size two_free.mem x ≥ 30)) :=
  ⟨⟨by decide, by decide, by decide, by decide, by decide, by decide⟩,
    find_free_block_first_fit 3 two_free [4096, 4170] two_free.global_base 30 (by decide)
      (by decide)⟩

/-- C16: for every non-empty chain and requested size with no matching free block,
`find_free_block` returns `NULL` and leaves in `*last` the tail of the chain, the only block
whose `next` is `NULL`; when the chain is well-formed and the OS grants the extension,
`my_alloc` then appends its new block after that tail, so the chain afterwards is the old
chain followed by the new block, still starting at the same `global_base`. -/
theorem find_free_block_miss_reports_tail (fuel : Nat) (s : State) (pre : List Nat)
    (tail last : Nat) (n : Int) (hchain : Chain s.mem s.global_base (pre ++ [tail]))
    (hf : (pre ++ [tail]).length < fuel)
    (hnone : ∀ b ∈ pre ++ [tail], ¬ (get_free s.mem b ≠ 0 ∧ get_size s.mem b ≥ n.toNat)) :
    find_free_block fuel s last n.toNat = some (NULL, tail) ∧
    get_next s.mem tail = NULL ∧
    (∀ x ∈ pre, get_next s.mem x ≠ NULL) ∧
    (WF s (pre ++ [tail]) → 0 ≤ n → n < 2147483648 → (sbrk s (n + 24)).1 ≠ SBRK_FAIL →
      ∃ s1, my_alloc fuel s n = Res.ok (s.brk + META_SIZE) s1 ∧
        s1.global_base = s.global_base ∧
        Chain s1.mem s1.global_base (pre ++ [tail] ++ [s.brk]) ∧
        get_next s1.mem tail = s.brk ∧ get_next s1.mem s.brk = NULL) := by
  have hfind : (pre ++ [tail]).find? (fits s.mem n.toNat) = none := by
    rw [List.find?_eq_none]
    intro x hx
    rw [fits_iff]
    exact hnone x hx
  have hloop := find_free_loop_chain s.mem n.toNat _ fuel s.global_base last hchain hf
  have ht : (pre ++ [tail]).takeWhile (fun b => !fits s.mem n.toNat b) = pre ++ [tail] := by
    rw [List.takeWhile_eq_self_iff]
    intro x hx
    have := List.find?_eq_none.mp hfind x hx
    simpa using this
  obtain ⟨htn, hpren⟩ := Chain_tail_next s.mem tail pre _ hchain
  refine ⟨?_, htn, hpren, ?_⟩
  · unfold find_free_block
    rw [hloop, hfind, ht]
    simp
  · intro hwf h0 h1 hext
    have hroom := sbrk_granted_room s n h0 hext
    have hW1 := WF_grow_snoc hwf n.toNat (by omega) hroom
    refine ⟨_, my_alloc_miss hwf fuel n h0 h1 hf hfind hroom, rfl, hW1.chain, ?_,
      new_header_next _ _ _⟩
    exact Chain_link _ tail s.brk pre _ hW1.chain

theorem find_free_block_miss_reports_tail_witness :
    (Chain two_blocks.mem two_blocks.global_base ([4096] ++ [4170]) ∧
      ([4096] ++ [4170]).length < 3 ∧
      (∀ b ∈ [4096] ++ [4170],
        ¬ (get_free two_blocks.mem b ≠ 0 ∧ get_size two_blocks.mem b ≥ (60 : Int).toNat)) ∧
      WF two_blocks ([4096] ++ [4170]) ∧ (0 : Int) ≤ 60 ∧ (60 : Int) < 2147483648 ∧
      (sbrk two_blocks (60 + 24)).1 ≠ SBRK_FAIL) ∧
    find_free_block 3 two_blocks two_blocks.global_base (60 : Int).toNat = some (NULL, 4170) ∧
    get_next two_blocks.mem 4170 = NULL ∧
    (∀ x ∈ [4096], get_next two_blocks.mem x ≠ NULL) ∧
    ∃ s1, my_alloc 3 two_blocks 60 = Res.ok (two_blocks.brk + META_SIZE) s1 ∧
      s1.global_base = two_blocks.global_base ∧
      Chain s1.mem s1.global_base ([4096] ++ [4170] ++ [two_blocks.brk]) ∧
      get_next s1.mem 4170 = two_blocks.brk ∧ get_next s1.mem two_blocks.brk = NULL :=
  have hwf : WF two_blocks ([4096] ++ [4170]) :=
    ⟨by decide, by decide, by decide, by decide, by decide, by decide⟩
  have h := find_free_block_miss_reports_tail 3 two_blocks [4096] 4170 two_blocks.global_base
    60 (by decide) (by decide) (by decide)
  ⟨⟨by decide, by decide, by decide, hwf, by decide, by decide, by decide⟩,
    h.1, h.2.1, h.2.2.1, h.2.2.2 hwf (by decide) (by decide) (by decide)⟩

/-! ## Byte counts that do not survive the conversion to `int` (C11, C17 to C20) -/

/-- C11 (code at the failing input): in the well-formed state `wide_blocks` the pointer
`p = 4176` is in use and its block records size 56. `reall_oc(p, 4294967296)` hands
`(int)4294967296 = 0` to `my_alloc`, gets the free zero-size block with payload `q = 4120`,
copies 56 bytes to `q` (over the header of `p`'s own block) and then sets `p`'s `free` flag,
which is byte 48 of what was copied: `q[48]` reads 1 although `p[48]` was 0 before the call,
and 48 is below `min(56, 4294967296)`. -/
theorem reall_oc_wide_size_alters_copied_byte :
    WF wide_blocks [4096, 4120, 4152] ∧
    get_free wide_blocks.mem (ptr_pred 4176) = 0 ∧
    get_size wide_blocks.mem (ptr_pred 4176) = 56 ∧
    (reall_oc 4 wide_blocks 4176 4294967296).val? = some 4120 ∧
    48 < min 56 4294967296 ∧
    wide_blocks.mem (4176 + 48) = 0 ∧
    ((reall_oc 4 wide_blocks 4176 4294967296).st wide_blocks).mem (4120 + 48) = 1 :=
  ⟨⟨by decide, by decide, by decide, by decide, by decide, by decide⟩, by decide, by decide,
    by decide, by decide, by decide, by decide⟩

/-- C17 (code at the failing input): the chain of `three_blocks` is `[4096, 4120, 4152]` with
the block at 4120 recording size 8. After `reall_oc(4176, 4294967296)` (which returns 4120)
the chain is `[4096, 4120]` and the block at 4120 records size 0: a block has left the chain
and an existing `size` field has changed. -/
theorem reall_oc_wide_size_cuts_chain :
    Chain three_blocks.mem three_blocks.global_base [4096, 4120, 4152] ∧
    get_size three_blocks.mem 4120 = 8 ∧
    (reall_oc 4 three_blocks 4176 4294967296).val? = some 4120 ∧
    Chain after_wide_resize.mem after_wide_resize.global_base [4096, 4120] ∧
    get_size after_wide_resize.mem 4120 = 0 ∧
    ¬ ([4096, 4120, 4152] <+: [4096, 4120]) :=
  ⟨by decide, by decide, by decide, by decide, by decide, by decide⟩

/-- C18 (code at the failing input): in `three_blocks_filled` the caller holds `x = 4144` and
`p = 4176`, both in use, and has written `0x01` bytes into the payload of `p`. After
`reall_oc(p, 4294967296)` (which returns 4120) the block of the still held `x` has a non-zero
`free` flag although `freee(x)` was never called, and the next `my_alloc(5)` returns `x`
again. -/
theorem reall_oc_wide_size_frees_held_block :
    WF three_blocks_filled [4096, 4120, 4152] ∧
    get_free three_blocks_filled.mem (ptr_pred 4144) = 0 ∧
    get_free three_blocks_filled.mem (ptr_pred 4176) = 0 ∧
    (reall_oc 4 three_blocks_filled 4176 4294967296).val? = some 4120 ∧
    get_free after_wide_resize_filled.mem (ptr_pred 4144) ≠ 0 ∧
    (my_alloc 4 after_wide_resize_filled 5).val? = some 4144 :=
  ⟨⟨by decide, by decide, by decide, by decide, by decide, by decide⟩, by decide, by decide,
    by decide, by decide, by decide⟩

/-- C19 (code at the failing input): after `reall_oc(4176, 4294967296)` on `three_blocks` the
chain is `[4096, 4120]`, its tail at 4120 records size 0, so its payload ends at 4144 while
the break is 4216: the tail does not end at the break. -/
theorem reall_oc_wide_size_breaks_layout :
    (reall_oc 4 three_blocks 4176 4294967296).val? = some 4120 ∧
    Chain after_wide_resize.mem after_wide_resize.global_base [4096, 4120] ∧
    4120 + META_SIZE + get_size after_wide_resize.mem 4120 = 4144 ∧
    after_wide_resize.brk = 4216 :=
  ⟨by decide, by decide, by decide, by decide⟩

theorem find_free_loop_mono (mem : Nat → Nat) (size : Nat) : ∀ (fuel fuel2 curr last : Nat)
    (r : Nat × Nat), find_free_loop mem size fuel curr last = some r → fuel ≤ fuel2 →
    find_free_loop mem size fuel2 curr last = some r := by
  intro fuel
  induction fuel with
  | zero =>
    intro fuel2 curr last r h _
    simp [find_free_loop] at h
  | succ f ih =>
    intro fuel2 curr last r h hle
    cases fuel2 with
    | zero => omega
    | succ f2 =>
      unfold find_free_loop at h ⊢
      by_cases hc : curr ≠ NULL ∧ ¬ (get_free mem curr ≠ 0 ∧ get_size mem curr ≥ size)
      · rw [if_pos hc] at h ⊢
        exact ih f2 _ _ r h (by omega)
      · rw [if_neg hc] at h ⊢
        exact h

theorem my_alloc_mono (fuel fuel2 : Nat) (s s2 : State) (n : Int) (p : Nat)
    (h : my_alloc fuel s n = Res.ok p s2) (hle : fuel ≤ fuel2) :
    my_alloc fuel2 s n = Res.ok p s2 := by
  unfold my_alloc at h ⊢
  by_cases hneg : n < 0
  · rw [if_pos hneg] at h ⊢
    exact h
  · rw [if_neg hneg] at h ⊢
    by_cases hbase : s.global_base = NULL
    · rw [if_pos hbase] at h ⊢
      exact h
    · rw [if_neg hbase] at h ⊢
      cases hfind : find_free_block fuel s s.global_base (size_t_of_int n) with
      | none =>
        rw [hfind] at h
        cases h
      | some r =>
        have hfind2 : find_free_block fuel2 s s.global_base (size_t_of_int n) = some r :=
          find_free_loop_mono _ _ _ _ _ _ r hfind hle
        rw [hfind] at h
        rw [hfind2]
        exact h

/-! ## Contiguous layout -/

theorem Contig_congr (m1 m2 : Nat → Nat) (brk : Nat) (l : List Nat)
    (h : ∀ b ∈ l, get_size m2 b = get_size m1 b) : Contig m1 brk l → Contig m2 brk l := by
  induction l with
  | nil => intro _; trivial
  | cons b t ih =>
    intro hc
    refine ⟨?_, ih (fun x hx => h x (List.mem_cons_of_mem b hx)) hc.2⟩
    rw [h b (List.mem_cons_self b t)]
    exact hc.1

theorem Contig_snoc (m1 m2 : Nat → Nat) (brk brk2 nb tail : Nat) (pre : List Nat)
    (hsize : ∀ b ∈ pre ++ [tail], get_size m2 b = get_size m1 b) (hnb : nb = brk)
    (hend : nb + META_SIZE + get_size m2 nb = brk2) :
    Contig m1 brk (pre ++ [tail]) → Contig m2 brk2 (pre ++ [tail] ++ [nb]) := by
  induction pre with
  | nil =>
    intro hc
    have h1 : tail + META_SIZE + get_size m1 tail = brk := hc.1
    refine ⟨?_, ?_, trivial⟩
    · show tail + META_SIZE + get_size m2 tail = nb
      rw [hsize tail (by simp), h1, hnb]
    · exact hend
  | cons b t ih =>
    intro hc
    have h1 : b + META_SIZE + get_size m1 b = (t ++ [tail]).headD brk := hc.1
    refine ⟨?_, ih (fun x hx => hsize x (List.mem_cons_of_mem b hx)) hc.2⟩
    show b + META_SIZE + get_size m2 b = (t ++ [tail] ++ [nb]).headD brk2
    rw [hsize b (by simp), h1]
    cases t with
    | nil => rfl
    | cons c u => rfl

/-- The one-block chain made by the first extension is contiguous. -/
theorem Contig_first_grow (m : Nat → Nat) (brk sz : Nat) (hsz : get_size m brk = sz) :
    Contig m (brk + (sz + 24)) [brk] := by
  refine ⟨?_, trivial⟩
  show brk + META_SIZE + get_size m brk = brk + (sz + 24)
  rw [hsz]
  simp only [META_SIZE]
  omega

theorem my_alloc_first_refuse (s : State) (fuel : Nat) (n : Int) (h0 : 0 ≤ n)
    (h1 : n < 2147483648) (hbase : s.global_base = NULL) (hb : s.brk ≠ SBRK_FAIL)
    (hroom : s.limit < s.brk + n.toNat + META_SIZE) :
    my_alloc fuel s n = Res.abort := by
  unfold my_alloc
  rw [if_neg (by omega), if_pos hbase, size_t_of_int_eq n h0 h1,
    request_block_refuse s NULL n.toNat (by omega) hroom hb]

/-! ## A returning `my_alloc` on a well-formed contiguous chain -/

theorem my_alloc_served {s : State} {l : List Nat} (hwf : WF s l)
    (hc : Contig s.mem s.brk l) (fuel : Nat) (n : Int) (p : Nat) (s2 : State) (h0 : 0 ≤ n)
    (h1 : n < 2147483648) (hA : my_alloc fuel s n = Res.ok p s2) :
    ∃ c l2, p = c + META_SIZE ∧ Served s l n.toNat s2 l2 c := by
  have hsz : n.toNat < 2147483648 := by omega
  have hszw : n.toNat < WORD := by simp only [WORD]; omega
  have hbs : s.brk ≠ SBRK_FAIL := by
    have h2 := hwf.brk_le
    have h3 := hwf.limit_lt
    simp only [SBRK_FAIL, SIZE_MAX] at *
    omega
  rcases List.eq_nil_or_concat l with e | ⟨pre, tail, e⟩
  · subst e
    have hbase : s.global_base = NULL := hwf.chain
    by_cases hroom : s.brk + n.toNat + META_SIZE ≤ s.limit
    · rw [my_alloc_first s fuel n h0 h1 hbase hwf.brk_pos hwf.limit_lt hroom] at hA
      injection hA with hp hs
      subst hs
      refine ⟨s.brk, [s.brk], hp.symm, ?_⟩
      exact {
        wf := WF_grow_first s n.toNat hsz hwf.brk_pos hwf.limit_lt hroom
        contig := Contig_first_grow _ s.brk n.toNat (new_header_size _ _ _ hszw)
        mem_new := List.mem_singleton_self _
        grows := Or.inr ⟨rfl, by simp⟩
        in_use := new_header_free _ _ _
        capacity := by
          show n.toNat ≤ get_size (set_free _ s.brk 0) s.brk
          rw [new_header_size _ _ _ hszw]
        was_free := fun hin => by simp at hin
        sizes := fun x hx => by simp at hx
        flags := fun x hx => by simp at hx
        payloads := fun x hx => by simp at hx }
    · rw [my_alloc_first_refuse s fuel n h0 h1 hbase hbs (by omega)] at hA
      cases hA
  · rw [List.concat_eq_append] at e
    subst e
    have hA2 := my_alloc_mono fuel (fuel + (pre ++ [tail]).length + 1) s s2 n p hA (by omega)
    have hf : (pre ++ [tail]).length < fuel + (pre ++ [tail]).length + 1 := by omega
    cases hfind : (pre ++ [tail]).find? (fits s.mem n.toNat) with
    | some c =>
      have hcl : c ∈ pre ++ [tail] := List.mem_of_find?_eq_some hfind
      have hfit := (fits_iff _ _ _).mp (List.find?_some hfind)
      rw [my_alloc_hit hwf _ n h0 h1 hf hfind] at hA2
      injection hA2 with hp hs
      subst hs
      refine ⟨c, pre ++ [tail], hp.symm, ?_⟩
      exact {
        wf := WF_set_free hwf hcl 0
        contig := Contig_congr s.mem _ _ _
          (fun x hx => (WF_fields_set_free hwf hcl 0 hx).1) hc
        mem_new := hcl
        grows := Or.inl rfl
        in_use := get_free_set_free _ c 0 (by decide)
        capacity := by
          show n.toNat ≤ get_size (set_free s.mem c 0) c
          rw [(WF_fields_set_free hwf hcl 0 hcl).1]
          exact hfit.2
        was_free := fun _ => hfit.1
        sizes := fun x hx => (WF_fields_set_free hwf hcl 0 hx).1
        flags := fun x hx hne => (WF_fields_set_free hwf hcl 0 hx).2.2 hne
        payloads := fun x hx hne a ha1 ha2 => by
          apply set_free_off
          have := WF_apart hwf hx hcl hne
          simp only [META_SIZE] at *
          omega }
    | none =>
      by_cases hroom : s.brk + n.toNat + META_SIZE ≤ s.limit
      · have hnotin : s.brk ∉ pre ++ [tail] := fun hin => by
          have := hwf.inb s.brk hin
          simp only [META_SIZE] at this
          omega
        have htl : tail ∈ pre ++ [tail] := by simp
        rw [my_alloc_miss hwf _ n h0 h1 hf hfind hroom] at hA2
        injection hA2 with hp hs
        subst hs
        refine ⟨s.brk, pre ++ [tail] ++ [s.brk], hp.symm, ?_⟩
        exact {
          wf := WF_grow_snoc hwf n.toNat hsz hroom
          contig := Contig_snoc s.mem _ s.brk _ s.brk tail pre
            (fun x hx => (grow_snoc_fields hwf n.toNat hx).1) rfl
            (by
              show s.brk + META_SIZE + get_size (set_free _ s.brk 0) s.brk = s.brk + (n.toNat + 24)
              rw [new_header_size _ _ _ hszw]
              simp only [META_SIZE]
              omega) hc
          mem_new := by simp
          grows := Or.inr ⟨rfl, hnotin⟩
          in_use := new_header_free _ _ _
          capacity := by
            show n.toNat ≤ get_size (set_free _ s.brk 0) s.brk
            rw [new_header_size _ _ _ hszw]
          was_free := fun hin => absurd hin hnotin
          sizes := fun x hx => (grow_snoc_fields hwf n.toNat hx).1
          flags := fun x hx _ => (grow_snoc_fields hwf n.toNat hx).2
          payloads := fun x hx _ a ha1 ha2 => by
            have hb := hwf.inb x hx
            show set_free (set_next (set_size (set_next s.mem tail s.brk) s.brk n.toNat)
              s.brk NULL) s.brk 0 a = s.mem a
            rw [new_header_off _ _ _ _ (by simp only [META_SIZE] at *; omega)]
            apply set_next_off
            by_cases e : x = tail
            · simp only [META_SIZE] at *
              omega
            · have := WF_apart hwf hx htl e
              simp only [META_SIZE] at *
              omega }
      · rw [my_alloc_miss_refuse hwf _ n h0 h1 hf hfind (by omega)] at hA2
        cases hA2

/-! ## The invariant under the three basic effects -/

theorem Inv_held_ne_null {s : State} {H l : List Nat} (hinv : Inv s H l) : NULL ∉ H := by
  intro hin
  obtain ⟨b, _, hp, _⟩ := hinv.held NULL hin
  simp [META_SIZE, NULL] at hp

/-- A served allocation adds the returned pointer to the held ones; it was not held before. -/
theorem Inv_served {s s1 : State} {H l l2 : List Nat} {n c : Nat} (hinv : Inv s H l)
    (hsv : Served s l n s1 l2 c) :
    Inv s1 ((c + META_SIZE) :: H) l2 ∧ c + META_SIZE ∉ H ∧ ∀ x ∈ l, x ∈ l2 := by
  have hsub : ∀ x ∈ l, x ∈ l2 := fun x hx => by
    rcases hsv.grows with e | ⟨e, _⟩
    · rw [e]; exact hx
    · rw [e]; exact List.mem_append_left _ hx
  have hnew : c + META_SIZE ∉ H := fun hin => by
    obtain ⟨b, hb, hp, hfree⟩ := hinv.held _ hin
    have e : c = b := by omega
    subst e
    exact hsv.was_free hb hfree
  refine ⟨⟨hsv.wf, hsv.contig, List.nodup_cons.mpr ⟨hnew, hinv.nodup⟩, ?_⟩, hnew, hsub⟩
  intro p hp
  rcases List.mem_cons.mp hp with e | hm
  · exact ⟨c, hsv.mem_new, e, hsv.in_use⟩
  · obtain ⟨b, hb, hpb, hfree⟩ := hinv.held p hm
    refine ⟨b, hsub b hb, hpb, ?_⟩
    have hne : b ≠ c := fun e => hsv.was_free (e ▸ hb) (e ▸ hfree)
    rw [hsv.flags b hb hne]
    exact hfree

/-- A memory change inside the payload of a block of the chain keeps the invariant and every
header field. -/
theorem Inv_payload_write {s : State} {H l : List Nat} (hinv : Inv s H l) {c : Nat}
    (hc : c ∈ l) (m2 : Nat → Nat)
    (hm : ∀ x, (x < c + 24 ∨ c + 24 + get_size s.mem c ≤ x) → m2 x = s.mem x) :
    Inv { s with mem := m2 } H l ∧
    ∀ b ∈ l, get_size m2 b = get_size s.mem b ∧ get_next m2 b = get_next s.mem b ∧
      get_free m2 b = get_free s.mem b := by
  obtain ⟨hW, hfld⟩ := WF_payload_write hinv.wf hc m2 hm
  refine ⟨⟨hW, Contig_congr s.mem m2 _ _ (fun x hx => (hfld x hx).1) hinv.contig,
    hinv.nodup, ?_⟩, hfld⟩
  intro p hp
  obtain ⟨b, hb, hpb, hfree⟩ := hinv.held p hp
  exact ⟨b, hb, hpb, by rw [← hfree]; exact (hfld b hb).2.2⟩

/-- Releasing a held pointer: `freee` returns, only the flag of its block changes, and the
pointer is no longer held. -/
theorem Inv_free {s : State} {H l : List Nat} (hinv : Inv s H l) {p : Nat} (hp : p ∈ H) :
    ∃ b ∈ l, p = b + META_SIZE ∧ get_free s.mem b = 0 ∧
      freee s p = Res.ok () { s with mem := set_free s.mem b 1 } ∧
      Inv { s with mem := set_free s.mem b 1 } (H.erase p) l ∧
      (∀ x ∈ l, get_size (set_free s.mem b 1) x = get_size s.mem x) ∧
      (∀ x ∈ l, x ≠ b → get_free (set_free s.mem b 1) x = get_free s.mem x) := by
  obtain ⟨b, hb, hpb, hfree⟩ := hinv.held p hp
  have hw := (WF_block_bound hinv.wf hb).2.2
  refine ⟨b, hb, hpb, hfree, by rw [hpb]; exact freee_in_use s b hw hfree, ?_,
    fun x hx => (WF_fields_set_free hinv.wf hb 1 hx).1,
    fun x hx hne => (WF_fields_set_free hinv.wf hb 1 hx).2.2 hne⟩
  refine ⟨WF_set_free hinv.wf hb 1, Contig_congr s.mem _ _ _
    (fun x hx => (WF_fields_set_free hinv.wf hb 1 hx).1) hinv.contig,
    hinv.nodup.erase p, ?_⟩
  intro q hq
  have hq2 := (List.Nodup.mem_erase_iff hinv.nodup).mp hq
  obtain ⟨b2, hb2, hqb, hfree2⟩ := hinv.held q hq2.2
  refine ⟨b2, hb2, hqb, ?_⟩
  have hne : b2 ≠ b := fun e => hq2.1 (by rw [hqb, hpb, e])
  show get_free (set_free s.mem b 1) b2 = 0
  rw [(WF_fields_set_free hinv.wf hb 1 hb2).2.2 hne]
  exact hfree2

/-! ## What the parts of an action keep -/

theorem Kept_refl {s : State} {H l : List Nat} (hinv : Inv s H l) : Kept s H l s H l :=
  { inv := hinv
    pre := List.prefix_refl l
    len := Nat.le_succ _
    sizes := fun _ _ => rfl
    freed := fun _ _ h0 h1 => absurd h0 h1
    fresh := fun _ hp hnp => absurd hp hnp }

theorem Kept_served {s s1 : State} {H l l2 : List Nat} {n c : Nat} (hinv : Inv s H l)
    (hsv : Served s l n s1 l2 c) : Kept s H l s1 ((c + META_SIZE) :: H) l2 := by
  obtain ⟨hI, hnew, _⟩ := Inv_served hinv hsv
  refine ⟨hI, ?_, ?_, hsv.sizes, ?_, ?_⟩
  · rcases hsv.grows with e | ⟨e, _⟩
    · rw [e]
    · rw [e]; exact List.prefix_append l [c]
  · rcases hsv.grows with e | ⟨e, _⟩
    · rw [e]; exact Nat.le_succ _
    · rw [e]; simp
  · intro x hx h0 h1
    have hne : x ≠ c := fun e => hsv.was_free (e ▸ hx) (e ▸ h0)
    rw [hsv.flags x hx hne] at h1
    exact absurd h0 h1
  · intro p hp hnp x hx hpx
    rcases List.mem_cons.mp hp with e | hm
    · have e2 : x = c := by omega
      rw [e2]
      exact hsv.was_free (e2 ▸ hx)
    · exact absurd hm hnp

theorem Kept_then_payload_write {s s1 : State} {H H1 l l2 : List Nat}
    (hk : Kept s H l s1 H1 l2) {c : Nat} (hc : c ∈ l2) (m2 : Nat → Nat)
    (hm : ∀ x, (x < c + 24 ∨ c + 24 + get_size s1.mem c ≤ x) → m2 x = s1.mem x) :
    Kept s H l { s1 with mem := m2 } H1 l2 := by
  obtain ⟨hI, hfld⟩ := Inv_payload_write hk.inv hc m2 hm
  have hsub : ∀ x ∈ l, x ∈ l2 := fun x hx => hk.pre.subset hx
  refine ⟨hI, hk.pre, hk.len, ?_, ?_, hk.fresh⟩
  · intro x hx
    show get_size m2 x = get_size s.mem x
    rw [(hfld x (hsub x hx)).1]
    exact hk.sizes x hx
  · intro x hx h0 h1
    have h2 : get_free m2 x ≠ 0 := h1
    rw [(hfld x (hsub x hx)).2.2] at h2
    exact hk.freed x hx h0 h2

theorem Kept_then_free {s s1 : State} {H H1 l l2 : List Nat} (hk : Kept s H l s1 H1 l2)
    {p : Nat} (hp1 : p ∈ H1) (hp : p ∈ H) :
    ∃ b, freee s1 p = Res.ok () { s1 with mem := set_free s1.mem b 1 } ∧
      Kept s H l { s1 with mem := set_free s1.mem b 1 } (H1.erase p) l2 := by
  obtain ⟨b, hb, hpb, hfree, hF, hI, hsz, hfl⟩ := Inv_free hk.inv hp1
  have hsub : ∀ x ∈ l, x ∈ l2 := fun x hx => hk.pre.subset hx
  refine ⟨b, hF, ⟨hI, hk.pre, hk.len, ?_, ?_, ?_⟩⟩
  · intro x hx
    show get_size (set_free s1.mem b 1) x = get_size s.mem x
    rw [hsz x (hsub x hx)]
    exact hk.sizes x hx
  · intro x hx h0 h1
    by_cases e : x = b
    · rw [e, ← hpb]
      exact ⟨hp, fun hin => ((List.Nodup.mem_erase_iff hk.inv.nodup).mp hin).1 rfl⟩
    · have h2 : get_free (set_free s1.mem b 1) x ≠ 0 := h1
      rw [hfl x (hsub x hx) e] at h2
      obtain ⟨h3, h4⟩ := hk.freed x hx h0 h2
      exact ⟨h3, fun hin => h4 (List.mem_of_mem_erase hin)⟩
  · intro q hq hnq
    exact hk.fresh q (List.mem_of_mem_erase hq) hnq

theorem Kept_reorder {s : State} {H l : List Nat} (hinv : Inv s H l) {p : Nat}
    (hp : p ∈ H) : Kept s H l s (p :: H.erase p) l := by
  have hmem : ∀ q ∈ p :: H.erase p, q ∈ H := fun q hq => by
    rcases List.mem_cons.mp hq with e | hm
    · rw [e]; exact hp
    · exact List.mem_of_mem_erase hm
  refine ⟨⟨hinv.wf, hinv.contig, ?_, fun q hq => hinv.held q (hmem q hq)⟩,
    List.prefix_refl l, Nat.le_succ _, fun _ _ => rfl, fun _ _ h0 h1 => absurd h0 h1,
    fun q hq hnq => absurd (hmem q hq) hnq⟩
  exact List.nodup_cons.mpr
    ⟨fun hin => ((List.Nodup.mem_erase_iff hinv.nodup).mp hin).1 rfl, hinv.nodup.erase p⟩

/-! ## Every action of the caller keeps the invariant -/

theorem alloc_kept {s s2 : State} {H l : List Nat} (hinv : Inv s H l) (fuel : Nat) (n : Int)
    (p : Nat) (hhi : n < 2147483648) (hA : my_alloc fuel s n = Res.ok p s2) :
    ∃ l2, Kept s H l s2 (if p = NULL then H else p :: H) l2 := by
  by_cases hneg : n < 0
  · unfold my_alloc at hA
    rw [if_pos hneg] at hA
    injection hA with h1 h2
    subst h1
    subst h2
    rw [if_pos rfl]
    exact ⟨l, Kept_refl hinv⟩
  · obtain ⟨c, l2, hp, hsv⟩ := my_alloc_served hinv.wf hinv.contig fuel n p s2 (by omega) hhi hA
    subst hp
    rw [if_neg (by simp [META_SIZE, NULL])]
    exact ⟨l2, Kept_served hinv hsv⟩

theorem memset_off (m : Nat → Nat) (dst c n x : Nat) (h : x < dst ∨ dst + n ≤ x) :
    memset m dst c n x = m x := by
  unfold memset
  rw [if_neg (by omega)]

theorem calloc_kept {s s2 : State} {H l : List Nat} (hinv : Inv s H l)
    (fuel nelem elsize p : Nat) (hsmall : nelem * elsize < 2147483648)
    (hC : call_oc fuel s nelem elsize = Res.ok p s2) :
    ∃ l2, Kept s H l s2 (if p = NULL then H else p :: H) l2 := by
  have hno : ¬ (nelem ≠ 0 ∧ (nelem * elsize % WORD) / nelem ≠ elsize) := fun h => by
    have := (overflow_test_iff nelem elsize).mp h
    simp only [SIZE_MAX] at this
    omega
  have hmod : nelem * elsize % WORD = nelem * elsize :=
    Nat.mod_eq_of_lt (by simp only [WORD]; omega)
  unfold call_oc at hC
  rw [if_neg hno, hmod, int_of_size_t_small _ hsmall] at hC
  cases hm : my_alloc fuel s ((nelem * elsize : Nat) : Int) with
  | abort => rw [hm] at hC; cases hC
  | nofuel => rw [hm] at hC; cases hC
  | ok ptr s1 =>
    rw [hm] at hC
    dsimp only at hC
    obtain ⟨c, l2, hp, hsv⟩ := my_alloc_served hinv.wf hinv.contig fuel _ ptr s1
      (by omega) (by omega) hm
    subst hp
    rw [if_neg (by simp [META_SIZE, NULL])] at hC
    injection hC with h1 h2
    subst h1
    subst h2
    rw [if_neg (by simp [META_SIZE, NULL])]
    have hcap := hsv.capacity
    simp only [Int.toNat_ofNat] at hcap
    exact ⟨l2, Kept_then_payload_write (Kept_served hinv hsv) hsv.mem_new _
      (fun x hx => memset_off _ _ _ _ _ (by simp only [META_SIZE]; omega))⟩

theorem realloc_kept {s s2 : State} {H l : List Nat} (hinv : Inv s H l)
    (fuel p size q : Nat) (hp : p = NULL ∨ p ∈ H) (hsmall : size < 2147483648)
    (hR : reall_oc fuel s p size = Res.ok q s2) :
    ∃ l2, Kept s H l s2 (if q = NULL then H else q :: H.erase p) l2 := by
  have hnull := Inv_held_ne_null hinv
  unfold reall_oc at hR
  by_cases hp0 : p = NULL
  · rw [if_pos hp0, int_of_size_t_small _ hsmall] at hR
    rw [hp0, List.erase_of_not_mem hnull]
    exact alloc_kept hinv fuel _ q (by omega) hR
  · have hpH : p ∈ H := hp.resolve_left hp0
    rw [if_neg hp0] at hR
    obtain ⟨b, hb, hpb, hfree⟩ := hinv.held p hpH
    have hw := (WF_block_bound hinv.wf hb).2.2
    have hpp : ptr_pred p = b := by
      have := ptr_pred_succ b hw
      rwa [ptr_succ_eq b hw, ← hpb] at this
    rw [hpp] at hR
    by_cases hsz : get_size s.mem b ≥ size
    · rw [if_pos hsz] at hR
      injection hR with h1 h2
      subst h1
      subst h2
      rw [if_neg hp0]
      exact ⟨l, Kept_reorder hinv hpH⟩
    · rw [if_neg hsz, int_of_size_t_small _ hsmall] at hR
      cases hm : my_alloc fuel s ((size : Nat) : Int) with
      | abort => rw [hm] at hR; cases hR
      | nofuel => rw [hm] at hR; cases hR
      | ok new_ptr s1 =>
        rw [hm] at hR
        dsimp only at hR
        obtain ⟨c, l2, hpc, hsv⟩ := my_alloc_served hinv.wf hinv.contig fuel _ new_ptr s1
          (by omega) (by omega) hm
        subst hpc
        rw [if_neg (by simp [META_SIZE, NULL])] at hR
        have hk1 := Kept_served hinv hsv
        have hbc : b ≠ c := fun e => hsv.was_free (e ▸ hb) (e ▸ hfree)
        have hsb : get_size s1.mem b = get_size s.mem b := hsv.sizes b hb
        have hcap := hsv.capacity
        simp only [Int.toNat_ofNat] at hcap
        have hk2 := Kept_then_payload_write hk1 hsv.mem_new
          (memcpy s1.mem (c + META_SIZE) p (get_size s1.mem b))
          (fun x hx => memcpy_off _ _ _ _ _ (by simp only [META_SIZE]; omega))
        obtain ⟨b2, hF, hk3⟩ := Kept_then_free hk2 (List.mem_cons_of_mem _ hpH) hpH
        rw [hF] at hR
        dsimp only at hR
        injection hR with h1 h2
        subst h1
        subst h2
        rw [if_neg (by simp [META_SIZE, NULL])]
        have hne : ¬ ((c + META_SIZE == p) = true) := by
          simp only [beq_iff_eq]
          intro e
          exact hbc (by omega)
        rw [List.erase_cons_tail hne] at hk3
        exact ⟨l2, hk3⟩

theorem free_kept {s s2 : State} {H l : List Nat} (hinv : Inv s H l) (p : Nat)
    (hp : p = NULL ∨ p ∈ H) (hF : freee s p = Res.ok () s2) :
    ∃ l2, Kept s H l s2 (H.erase p) l2 := by
  by_cases hp0 : p = NULL
  · unfold freee at hF
    rw [if_pos hp0] at hF
    injection hF with _ h2
    subst h2
    rw [hp0, List.erase_of_not_mem (Inv_held_ne_null hinv)]
    exact ⟨l, Kept_refl hinv⟩
  · have hpH : p ∈ H := hp.resolve_left hp0
    obtain ⟨b, hF2, hk⟩ := Kept_then_free (Kept_refl hinv) hpH hpH
    rw [hF2] at hF
    injection hF with _ h2
    subst h2
    exact ⟨l, hk⟩

theorem write_kept {s : State} {H l : List Nat} (hinv : Inv s H l) (p i v : Nat)
    (hp : p ∈ H) (hi : i < get_size s.mem (ptr_pred p)) :
    Kept s H l { s with mem := store s.mem (p + i) 1 v } H l := by
  obtain ⟨b, hb, hpb, hfree⟩ := hinv.held p hp
  have hw := (WF_block_bound hinv.wf hb).2.2
  have hpp : ptr_pred p = b := by
    have := ptr_pred_succ b hw
    rwa [ptr_succ_eq b hw, ← hpb] at this
  rw [hpp] at hi
  exact Kept_then_payload_write (Kept_refl hinv) hb _
    (fun x hx => store_off _ _ _ _ _ (by simp only [META_SIZE] at hpb; omega))

/-- Every action of a caller whose byte counts fit an `int` keeps the invariant; the old
chain is a prefix of the new one and no `size` field changes. -/
theorem Step_kept {s s2 : State} {H H2 l : List Nat} (hinv : Inv s H l)
    (hstep : Step s H s2 H2) : ∃ l2, Kept s H l s2 H2 l2 := by
  cases hstep with
  | alloc fuel n _ _ _ p _ hhi hA => exact alloc_kept hinv fuel n p hhi hA
  | calloc fuel nelem elsize _ _ _ p hsmall hC =>
    exact calloc_kept hinv fuel nelem elsize p hsmall hC
  | realloc fuel p size _ _ _ q hp hsmall hR =>
    exact realloc_kept hinv fuel p size q hp hsmall hR
  | free p _ _ _ hp hF => exact free_kept hinv p hp hF
  | write p i v _ _ hp hi => exact ⟨l, write_kept hinv p i v hp hi⟩

/-- Every reachable state satisfies the invariant for some chain. -/
theorem Reach_inv {s : State} {H : List Nat} (hr : Reach s H) : ∃ l, Inv s H l := by
  induction hr with
  | start s hbase hb hle hlim =>
    exact ⟨[], ⟨⟨hb, hle, hlim, hbase, fun b hb => by simp at hb, List.Pairwise.nil⟩, trivial,
      List.nodup_nil, fun p hp => by simp at hp⟩⟩
  | step s s2 H H2 _ hstep ih =>
    obtain ⟨l, hinv⟩ := ih
    obtain ⟨l2, hk⟩ := Step_kept hinv hstep
    exact ⟨l2, hk.inv⟩

/-! ## The chain, the held pointers and the layout when byte counts fit an `int` -/

/-- With byte counts that fit an `int`, every action on a reachable state leaves the old
chain, with its addresses and `size` fields, as a prefix of the new chain, which is at most
one block longer. -/
theorem in_range_chain_prefix {s s2 : State} {H H2 : List Nat} (hr : Reach s H)
    (hstep : Step s H s2 H2) :
    ∃ l l2, Chain s.mem s.global_base l ∧ Chain s2.mem s2.global_base l2 ∧ l <+: l2 ∧
      l2.length ≤ l.length + 1 ∧ ∀ x ∈ l, get_size s2.mem x = get_size s.mem x := by
  obtain ⟨l, hinv⟩ := Reach_inv hr
  obtain ⟨l2, hk⟩ := Step_kept hinv hstep
  exact ⟨l, l2, hinv.wf.chain, hk.inv.wf.chain, hk.pre, hk.len, hk.sizes⟩

/-- With byte counts that fit an `int`, in every reachable state no pointer is held twice and
every held pointer is the payload of an in-use block of the chain; an action turns a `free`
flag from zero to non-zero only for a pointer it releases, and a newly held pointer sits on a
block that was free or did not exist. -/
theorem in_range_held_in_use {s : State} {H : List Nat} (hr : Reach s H) :
    H.Nodup ∧
    ∃ l, Chain s.mem s.global_base l ∧
      (∀ p ∈ H, ∃ b ∈ l, p = b + META_SIZE ∧ get_free s.mem b = 0) ∧
      ∀ s2 H2, Step s H s2 H2 →
        (∀ x ∈ l, get_free s.mem x = 0 → get_free s2.mem x ≠ 0 →
          x + META_SIZE ∈ H ∧ x + META_SIZE ∉ H2) ∧
        (∀ p ∈ H2, p ∉ H → ∀ x ∈ l, p = x + META_SIZE → get_free s.mem x ≠ 0) := by
  obtain ⟨l, hinv⟩ := Reach_inv hr
  refine ⟨hinv.nodup, l, hinv.wf.chain, hinv.held, ?_⟩
  intro s2 H2 hstep
  obtain ⟨l2, hk⟩ := Step_kept hinv hstep
  exact ⟨hk.freed, hk.fresh⟩

/-- With byte counts that fit an `int`, in every reachable state the chain is contiguous
(each block ends where the next one starts, the tail ends at the break) and the blocks, header
plus payload, are pairwise disjoint. -/
theorem in_range_layout {s : State} {H : List Nat} (hr : Reach s H) :
    ∃ l, Chain s.mem s.global_base l ∧ Contig s.mem s.brk l ∧
      ∀ b ∈ l, ∀ c ∈ l, b ≠ c →
        b + META_SIZE + get_size s.mem b ≤ c ∨ c + META_SIZE + get_size s.mem c ≤ b := by
  obtain ⟨l, hinv⟩ := Reach_inv hr
  exact ⟨l, hinv.wf.chain, hinv.contig, fun b hb c hc hne => WF_apart hinv.wf hb hc hne⟩

/-- With a byte count that fits an `int`, a non-null result `q` of `reall_oc(b + 1, size)` on
a well-formed contiguous chain holds in its first `min(b->size, size)` bytes what the payload
of `b` held before the call. -/
theorem in_range_reall_oc_bytes (fuel : Nat) (s s2 : State) (l : List Nat) (b size q : Nat)
    (hwf : WF s l) (hc : Contig s.mem s.brk l) (hb : b ∈ l) (hinuse : get_free s.mem b = 0)
    (hsmall : size < 2147483648)
    (hR : reall_oc fuel s (b + META_SIZE) size = Res.ok q s2) :
    ∀ i, i < min (get_size s.mem b) size → s2.mem (q + i) = s.mem (b + META_SIZE + i) := by
  have hw := (WF_block_bound hwf hb).2.2
  have hpp : ptr_pred (b + META_SIZE) = b := by
    have := ptr_pred_succ b hw
    rwa [ptr_succ_eq b hw] at this
  unfold reall_oc at hR
  rw [if_neg (by simp [META_SIZE, NULL]), hpp] at hR
  by_cases hsz : get_size s.mem b ≥ size
  · rw [if_pos hsz] at hR
    injection hR with h1 h2
    subst h1
    subst h2
    intro i _
    rfl
  · rw [if_neg hsz, int_of_size_t_small _ hsmall] at hR
    cases hm : my_alloc fuel s ((size : Nat) : Int) with
    | abort => rw [hm] at hR; cases hR
    | nofuel => rw [hm] at hR; cases hR
    | ok new_ptr s1 =>
      rw [hm] at hR
      dsimp only at hR
      obtain ⟨c, l2, hpc, hsv⟩ := my_alloc_served hwf hc fuel _ new_ptr s1
        (by omega) (by omega) hm
      subst hpc
      rw [if_neg (by simp [META_SIZE, NULL])] at hR
      have hbc : b ≠ c := fun e => hsv.was_free (e ▸ hb) (e ▸ hinuse)
      have hbl2 : b ∈ l2 := by
        rcases hsv.grows with e | ⟨e, _⟩
        · rw [e]; exact hb
        · rw [e]; exact List.mem_append_left _ hb
      have hsb : get_size s1.mem b = get_size s.mem b := hsv.sizes b hb
      have hcap := hsv.capacity
      simp only [Int.toNat_ofNat] at hcap
      obtain ⟨hW1, hfld⟩ := WF_payload_write hsv.wf hsv.mem_new
        (memcpy s1.mem (c + META_SIZE) (b + META_SIZE) (get_size s1.mem b))
        (fun x hx => memcpy_off _ _ _ _ _ (by simp only [META_SIZE]; omega))
      have hF := freee_in_use
        { s1 with mem := memcpy s1.mem (c + META_SIZE) (b + META_SIZE) (get_size s1.mem b) }
        b hw (by rw [← hinuse, ← hsv.flags b hb hbc]; exact (hfld b hbl2).2.2)
      rw [hF] at hR
      dsimp only at hR
      injection hR with h1 h2
      subst h1
      subst h2
      intro i hi
      have hap := WF_apart hsv.wf hbl2 hsv.mem_new hbc
      show set_free (memcpy s1.mem (c + META_SIZE) (b + META_SIZE) (get_size s1.mem b)) b 1
        (c + META_SIZE + i) = s.mem (b + META_SIZE + i)
      rw [set_free_off _ _ _ _ (by simp only [META_SIZE] at *; omega)]
      unfold memcpy
      rw [if_pos (by omega)]
      have e : b + META_SIZE + (c + META_SIZE + i - (c + META_SIZE)) = b + META_SIZE + i := by
        omega
      rw [e]
      exact hsv.payloads b hb hbc _ (by omega) (by omega)

/-- The state `three_blocks`, with the caller holding `p = 4176` and `x = 4144`, is reached by
`a = my_alloc(0); x = my_alloc(8); p = my_alloc(40); freee(a)` from a fresh process. -/
theorem three_blocks_reachable : Reach three_blocks [4176, 4144] := by
  have h0 : Reach fresh [] := Reach.start fresh rfl (by decide) (by decide) (by decide)
  have h1 : Reach ((my_alloc 3 fresh 0).st fresh) [4120] :=
    Reach.step _ _ _ _ h0 (Step.alloc 3 0 fresh _ [] 4120 (by decide) (by decide)
      (Res.eq_ok_of_val _ 4120 fresh (by decide)))
  have h2 : Reach ((my_alloc 3 ((my_alloc 3 fresh 0).st fresh) 8).st fresh) [4144, 4120] :=
    Reach.step _ _ _ _ h1 (Step.alloc 3 8 _ _ [4120] 4144 (by decide) (by decide)
      (Res.eq_ok_of_val _ 4144 fresh (by decide)))
  have h3 : Reach ((my_alloc 3 ((my_alloc 3 ((my_alloc 3 fresh 0).st fresh) 8).st fresh)
      40).st fresh) [4176, 4144, 4120] :=
    Reach.step _ _ _ _ h2 (Step.alloc 3 40 _ _ [4144, 4120] 4176 (by decide) (by decide)
      (Res.eq_ok_of_val _ 4176 fresh (by decide)))
  exact Reach.step _ _ _ _ h3 (Step.free 4120 _ _ [4176, 4144, 4120] (by decide)
    (Res.eq_ok_of_val _ () fresh (by decide)))

end MyAlloc
